import Mathlib

/-!
# fullname_parser: a shallow embedding of `parser.go`

Strings are modelled as lists of Unicode code points (`Str`), which covers every
valid UTF-8 Go string.  The package-level variables `nameParts` and `nameCommas`
become the two fields of `State`, threaded explicitly through every stage.  A
stage returns `none` where the Go code would panic with an index or slice bound
out of range (slice bounds are checked against the length; Go checks them
against the capacity, which is never smaller, so a run that the model completes
is a run that Go completes with the same values).
-/

set_option autoImplicit false

namespace FullnameParser

abbrev Str := List Char

/-- The `ParsedName` struct: six strings, the empty string standing for absence. -/
structure ParsedName where
  Title : Str
  First : Str
  Middle : Str
  Last : Str
  Nick : Str
  Suffix : Str
deriving DecidableEq, Repr

/-- The package-level variables `nameParts` and `nameCommas`. -/
structure State where
  nameParts : List Str
  nameCommas : List Bool
deriving DecidableEq, Repr

/-- Both package-level slices are nil when the package is loaded. -/
def State.initial : State := ⟨[], []⟩

/-! ## The reference lists -/

def suffixList : List Str :=
  ["esq", "esquire", "jr", "jnr", "sr", "snr", "2", "ii", "iii", "iv",
   "v", "clu", "chfc", "cfp", "md", "phd", "j.d.", "ll.m.", "m.d.", "d.o.", "d.c.",
   "p.c.", "ph.d."].map String.toList

/-- The entry before `"öfver"` is the Go raw string of the four characters
`u`, `i`, backslash, apostrophe. -/
def prefixList : List Str :=
  (["a", "ab", "antune", "ap", "abu", "al", "alm", "alt", "bab", "bäck",
    "bar", "bath", "bat", "beau", "beck", "ben", "berg", "bet", "bin", "bint", "birch",
    "björk", "björn", "bjur", "da", "dahl", "dal", "de", "degli", "dele", "del",
    "della", "der", "di", "dos", "du", "e", "ek", "el", "escob", "esch", "fleisch",
    "fitz", "fors", "gott", "griff", "haj", "haug", "holm", "ibn", "kauf", "kil",
    "koop", "kvarn", "la", "le", "lind", "lönn", "lund", "mac", "mhic", "mic", "mir",
    "na", "naka", "neder", "nic", "ni", "nin", "nord", "norr", "ny", "o", "ua"].map String.toList)
  ++ [['u', 'i', Char.ofNat 92, Char.ofNat 39]] ++
  (["öfver", "ost", "över", "öz", "papa", "pour", "quarn", "skog", "skoog", "sten",
    "stor", "ström", "söder", "ter", "ter", "tre", "türk", "van", "väst", "väster",
    "vest", "von"].map String.toList)

def titleList : List Str :=
  ["mr", "mrs", "ms", "miss", "dr", "herr", "monsieur", "hr", "frau",
   "a v m", "admiraal", "admiral", "air cdre", "air commodore", "air marshal",
   "air vice marshal", "alderman", "alhaji", "ambassador", "baron", "barones",
   "brig", "brig gen", "brig general", "brigadier", "brigadier general",
   "brother", "canon", "capt", "captain", "cardinal", "cdr", "chief", "cik", "cmdr",
   "coach", "col", "colonel", "commandant", "commander", "commissioner",
   "commodore", "comte", "comtessa", "congressman", "conseiller", "consul",
   "conte", "contessa", "corporal", "councillor", "count", "countess",
   "crown prince", "crown princess", "dame", "datin", "dato", "datuk",
   "datuk seri", "deacon", "deaconess", "dean", "dhr", "dipl ing", "doctor",
   "dott", "dott sa", "dr ing", "dra", "drs", "embajador", "embajadora", "en",
   "encik", "eng", "eur ing", "exma sra", "exmo sr", "f o", "father",
   "first lieutient", "first officer", "flt lieut", "flying officer", "fr",
   "frau", "fraulein", "fru", "gen", "generaal", "general", "governor", "graaf",
   "gravin", "group captain", "grp capt", "h e dr", "h h", "h m", "h r h", "hajah",
   "haji", "hajim", "her highness", "her majesty", "herr", "high chief",
   "his highness", "his holiness", "his majesty", "hon", "hr", "hra", "ing", "ir",
   "jonkheer", "judge", "justice", "khun ying", "kolonel", "lady", "lcda", "lic",
   "lieut", "lieut cdr", "lieut col", "lieut gen", "lord", "m", "m l", "m r",
   "madame", "mademoiselle", "maj gen", "major", "master", "mevrouw", "miss",
   "mlle", "mme", "monsieur", "monsignor", "mstr", "nti", "pastor",
   "president", "prince", "princess", "princesse", "prinses", "prof",
   "prof sir", "professor", "puan", "puan sri", "rabbi", "rear admiral", "rev",
   "rev canon", "rev dr", "rev mother", "reverend", "rva", "senator", "sergeant",
   "sheikh", "sheikha", "sig", "sig na", "sig ra", "sir", "sister", "sqn ldr", "sr",
   "sr d", "sra", "srta", "sultan", "tan sri", "tan sri dato", "tengku", "teuku",
   "than puying", "the hon dr", "the hon justice", "the hon miss", "the hon mr",
   "the hon mrs", "the hon ms", "the hon sir", "the very rev", "toh puan", "tun",
   "vice admiral", "viscount", "viscountess", "wg cdr"].map String.toList

def conjunctionList : List Str :=
  ["&", "and", "et", "e", "of", "the", "und", "y"].map String.toList

/-! ## The Go library functions the parser calls -/

/-- The regexp class `\s`: tab, line feed, form feed, carriage return, space. -/
def isPerlSpace (c : Char) : Bool :=
  c.toNat = 9 || c.toNat = 10 || c.toNat = 12 || c.toNat = 13 || c.toNat = 32

/-- The regexp class `\p{Zs}`: the Unicode space separators. -/
def isZs (c : Char) : Bool :=
  c.toNat = 0x20 || c.toNat = 0xA0 || c.toNat = 0x1680 ||
  (0x2000 ≤ c.toNat && c.toNat ≤ 0x200A) ||
  c.toNat = 0x202F || c.toNat = 0x205F || c.toNat = 0x3000

/-- The class `[\s\p{Zs}]` of the regexp in `splitName`. -/
def isSep (c : Char) : Bool := isPerlSpace c || isZs c

/-- White space as `unicode.IsSpace` defines it, which `strings.TrimSpace` trims. -/
def isSpace (c : Char) : Bool :=
  (9 ≤ c.toNat && c.toNat ≤ 13) || c.toNat = 0x20 || c.toNat = 0x85 || c.toNat = 0xA0 ||
  c.toNat = 0x1680 || (0x2000 ≤ c.toNat && c.toNat ≤ 0x200A) ||
  c.toNat = 0x2028 || c.toNat = 0x2029 || c.toNat = 0x202F || c.toNat = 0x205F ||
  c.toNat = 0x3000

/-- The function `strings.TrimSpace`. -/
def trimSpace (s : Str) : Str :=
  ((s.dropWhile isSpace).reverse.dropWhile isSpace).reverse

/-- The test `strings.HasSuffix(s, c)` for a one-character suffix. -/
def hasSuffix (c : Char) (s : Str) : Bool := s.getLast? == some c

/-- The function `strings.TrimSuffix(s, c)` for a one-character suffix. -/
def trimSuffix (c : Char) (s : Str) : Str := if hasSuffix c s then s.dropLast else s

/-- The rune map of `strings.ToLower`.  The lowered form of a token is only ever
compared with the entries of `suffixList` and `titleList`, all of them ASCII, so
what matters of `unicode.ToLower` outside ASCII is which runes it sends into
ASCII: U+0130 (to `i`) and U+212A, the Kelvin sign (to `k`).  Every other
non-ASCII rune lowers to a non-ASCII rune and is left as it is here. -/
def toLowerRune (c : Char) : Char :=
  if 65 ≤ c.toNat ∧ c.toNat ≤ 90 then Char.ofNat (c.toNat + 32)
  else if c.toNat = 0x130 then 'i'
  else if c.toNat = 0x212A then 'k'
  else c

/-- The function `strings.ToLower`. -/
def toLower (s : Str) : Str := s.map toLowerRune

/-- The function `strings.Split(s, " ")`. -/
def splitOnSpace : Str → List Str
  | [] => [[]]
  | c :: cs =>
    if c = ' ' then [] :: splitOnSpace cs
    else
      match splitOnSpace cs with
      | [] => [[c]]
      | w :: ws => (c :: w) :: ws

/-- The function `strings.Join`. -/
def join (parts : List Str) (sep : Str) : Str := sep.intercalate parts

/-- The call `strings.Replace(s, old, "", -1)`: every occurrence of `old`, found
left to right without overlap, is deleted.  The counter is the number of
characters of the current occurrence still to skip. -/
def removeAll (old : Str) : Nat → Str → Str
  | _, [] => []
  | k + 1, _ :: rest => removeAll old k rest
  | 0, c :: rest =>
    if old ≠ [] ∧ old.isPrefixOf (c :: rest) then removeAll old (old.length - 1) rest
    else c :: removeAll old 0 rest

/-- The call `ReplaceAllLiteralString(s, " ")` of the regexp `[\s\p{Zs}]{2,}`:
every maximal run of two or more separator characters becomes one space.  The
flag says that the run being read has already been replaced. -/
def collapseSpaces : Bool → Str → Str
  | _, [] => []
  | inRun, c :: rest =>
    if isSep c then
      if inRun then collapseSpaces true rest
      else
        match rest with
        | [] => [c]
        | d :: _ =>
          if isSep d then ' ' :: collapseSpaces true rest
          else c :: collapseSpaces false rest
    else c :: collapseSpaces false rest

/-- The Go expression `append(a[:lo], a[hi:]...)`; it panics when a bound is out
of range. -/
def spliceOut {α : Type} (a : List α) (lo hi : Nat) : Option (List α) :=
  if lo ≤ hi ∧ hi ≤ a.length then some (a.take lo ++ a.drop hi) else none

/-- The Go index expression `a[i]` for a signed index. -/
def getAt {α : Type} (a : List α) (i : Int) : Option α :=
  if 0 ≤ i then a.get? i.toNat else none

/-- The Go assignment `a[i] = v`. -/
def setAt {α : Type} (a : List α) (i : Nat) (v : α) : Option (List α) :=
  if i < a.length then some (a.set i v) else none

/-- A `range` loop whose body may panic. -/
def forEachM {σ α : Type} (body : σ → α → Option σ) : σ → List α → Option σ
  | s, [] => some s
  | s, a :: rest =>
    match body s a with
    | none => none
    | some s1 => forEachM body s1 rest

/-- The loop `for i := n - 1; i >= 0; i--` whose body may panic. -/
def downFrom {σ : Type} (body : Nat → σ → Option σ) : Nat → σ → Option σ
  | 0, s => some s
  | n + 1, s =>
    match body n s with
    | none => none
    | some s1 => downFrom body n s1

/-! ## Nickname extraction -/

/-- The opening class `[\'\"\(\[]` of the nickname regexp. -/
def isOpener (c : Char) : Bool := c.toNat = 39 || c.toNat = 34 || c = '(' || c = '['

/-- The closing class `[\'\"\)\]]` of the nickname regexp. -/
def isCloser (c : Char) : Bool := c.toNat = 39 || c.toNat = 34 || c = ')' || c = ']'

/-- The captured class `[^\[\]\)\)\'\"]` of the nickname regexp: the source
lists the closing parenthesis twice and leaves the opening one out. -/
def isInner (c : Char) : Bool :=
  !(c = '[' || c = ']' || c = ')' || c.toNat = 39 || c.toNat = 34)

/-- An anchored match of `[\'\"\(\[]([^\[\]\)\)\'\"]+)[\'\"\)\]]`, giving the
matched text and the captured group.  The greedy `+` stops at the first
character outside its class; every closer is outside that class, so no shorter
capture can be followed by a closer and the longest run is the only candidate. -/
def matchSpan : Str → Option (Str × Str)
  | [] => none
  | o :: rest =>
    if isOpener o then
      match rest.takeWhile isInner, rest.dropWhile isInner with
      | [], _ => none
      | _ :: _, [] => none
      | inner, c :: _ => if isCloser c then some (o :: inner ++ [c], inner) else none
    else none

/-- An anchored match of the whole nickname regexp, with its optional leading
`\s` taken greedily. -/
def matchNickname : Str → Option (Str × Str)
  | [] => none
  | c :: rest =>
    if isPerlSpace c then
      match matchSpan rest with
      | some (full, inner) => some (c :: full, inner)
      | none => matchSpan (c :: rest)
    else matchSpan (c :: rest)

/-- The call `re.FindAllStringSubmatch(s, -1)`: successive leftmost matches, each
search starting where the previous match ended.  The counter is the number of
characters of the current match still to skip. -/
def findAllSubmatch : Nat → Str → List (Str × Str)
  | _, [] => []
  | k + 1, _ :: rest => findAllSubmatch k rest
  | 0, c :: rest =>
    match matchNickname (c :: rest) with
    | some (full, inner) => (full, inner) :: findAllSubmatch (full.length - 1) rest
    | none => findAllSubmatch 0 rest

/-- The function `findNicknames`: the captured groups, and the string with the
text of each match deleted in turn. -/
def findNicknames (fullname : Str) : List Str × Str :=
  let found := findAllSubmatch 0 fullname
  (found.map Prod.snd, found.foldl (fun tempString v => removeAll v.1 0 tempString) fullname)

/-! ## Tokenization -/

/-- The loop of `splitName` over the pieces, from index `i` on. -/
def splitLoop : List Str → Nat → List Bool → Option (List Str × List Bool)
  | [], _, commas => some ([], commas)
  | v :: rest, i, commas =>
    let commas1 := commas ++ [false]
    if hasSuffix ',' v then
      match setAt commas1 i true with
      | none => none
      | some commas2 =>
        match splitLoop rest (i + 1) commas2 with
        | none => none
        | some (parts, commas3) => some (trimSuffix ',' v :: parts, commas3)
    else
      match splitLoop rest (i + 1) commas1 with
      | none => none
      | some (parts, commas3) => some (trimSpace v :: parts, commas3)

/-- The function `splitName`: `nameParts` is assigned afresh, `nameCommas` is
appended to. -/
def splitName (st : State) (fullname : Str) : Option State :=
  let pieces := splitOnSpace (trimSpace (collapseSpaces false fullname))
  match splitLoop pieces 0 st.nameCommas with
  | none => none
  | some (parts, commas) => some ⟨parts, commas⟩

/-! ## Suffixes and titles -/

/-- The value `partToCheck` of `findParts`. -/
def partToCheck (namePart : Str) : Str := trimSuffix '.' (toLower namePart)

/-- The first loop of `findParts`: a part is appended once for every entry of
the list that equals its lowered form. -/
def scanParts (list : List Str) : List Str → List Str
  | [] => []
  | namePart :: rest =>
    if namePart = [] then scanParts list rest
    else List.replicate (list.count (partToCheck namePart)) namePart ++ scanParts list rest

/-- The index of the first element equal to `x`. -/
def firstIndex (x : Str) : List Str → Option Nat
  | [] => none
  | y :: rest => if x = y then some 0 else (firstIndex x rest).map (· + 1)

/-- One round of the second loop of `findParts`. -/
def clearPart (st : State) (partFound : Str) : Option State :=
  match firstIndex partFound st.nameParts with
  | none => some st
  | some foundIndex =>
    match spliceOut st.nameParts foundIndex (foundIndex + 1) with
    | none => none
    | some parts =>
      match st.nameCommas.get? foundIndex with
      | none => none
      | some comma =>
        match (if comma ∧ foundIndex + 1 ≠ st.nameCommas.length
               then spliceOut st.nameCommas (foundIndex + 1) (foundIndex + 1 + 1)
               else spliceOut st.nameCommas foundIndex (foundIndex + 1)) with
        | none => none
        | some commas => some ⟨parts, commas⟩

/-- The function `findParts`. -/
def findParts (list : List Str) (st : State) : Option (List Str × State) :=
  let partsFound := scanParts list st.nameParts
  match forEachM clearPart st partsFound with
  | none => none
  | some st1 => some (partsFound, st1)

/-- The function `findSuffixes`. -/
def findSuffixes (st : State) : Option (List Str × State) := findParts suffixList st

/-- The function `findTitles`. -/
def findTitles (st : State) : Option (List Str × State) := findParts titleList st

/-! ## Joining prefixes and conjunctions -/

/-- The body of the inner loop of `joinPrefixes` at index `i`. -/
def joinPrefixAt (i : Nat) (st : State) (pref : Str) : Option State :=
  match st.nameParts.get? i with
  | none => none
  | some part =>
    if pref = part then
      match st.nameParts.get? (i + 1) with
      | none => none
      | some next =>
        match spliceOut (st.nameParts.set i (part ++ ' ' :: next)) (i + 1) (i + 2),
              spliceOut st.nameCommas i (i + 1) with
        | some parts, some commas => some ⟨parts, commas⟩
        | _, _ => none
    else some st

/-- The function `joinPrefixes`. -/
def joinPrefixes (st : State) : Option State :=
  if st.nameParts.length > 1 then
    downFrom (fun i s => forEachM (joinPrefixAt i) s prefixList) (st.nameParts.length - 1) st
  else some st

/-- The body of the inner loop of `joinConjunctions`; it decrements the index of
the outer loop after a merge. -/
def joinConjunctionAt (acc : Int × State) (conj : Str) : Option (Int × State) :=
  match getAt acc.2.nameParts (acc.1 + 1) with
  | none => none
  | some mid =>
    if conj = mid then
      match getAt acc.2.nameParts acc.1, getAt acc.2.nameParts (acc.1 + 2) with
      | some left, some right =>
        match spliceOut (acc.2.nameParts.set acc.1.toNat (left ++ ' ' :: (mid ++ ' ' :: right)))
                (acc.1.toNat + 1) (acc.1.toNat + 3),
              spliceOut acc.2.nameCommas acc.1.toNat (acc.1.toNat + 2) with
        | some parts, some commas => some (acc.1 - 1, ⟨parts, commas⟩)
        | _, _ => none
      | _, _ => none
    else some acc

/-- The outer loop `for i := ...; i >= 0; i--` of `joinConjunctions`.  The index
goes down by at least one in every round, so `len(nameParts)` rounds of fuel are
never used up; `none` stands for a panic or for fuel running out. -/
def conjunctionLoop : Nat → Int → State → Option State
  | fuel, i, st =>
    if i < 0 then some st
    else
      match fuel with
      | 0 => none
      | fuel1 + 1 =>
        match forEachM joinConjunctionAt (i, st) conjunctionList with
        | none => none
        | some (i1, st1) => conjunctionLoop fuel1 (i1 - 1) st1

/-- The function `joinConjunctions`. -/
def joinConjunctions (st : State) : Option State :=
  if st.nameParts.length > 2 then
    conjunctionLoop st.nameParts.length ((st.nameParts.length : Int) - 3) st
  else some st

/-! ## Extra suffixes, last, first and middle name -/

/-- The body of the loop of `findExtraSuffixes` at index `i`. -/
def extraSuffixAt (i : Nat) (acc : List Str × State) : Option (List Str × State) :=
  match acc.2.nameCommas.get? i with
  | none => none
  | some comma =>
    if comma then
      match acc.2.nameParts.get? i, spliceOut acc.2.nameParts i (i + 1),
            spliceOut acc.2.nameCommas i (i + 1) with
      | some part, some parts, some commas => some (acc.1 ++ [part], ⟨parts, commas⟩)
      | _, _, _ => none
    else some acc

/-- The function `findExtraSuffixes`; its loop runs over `i = len - 1, ..., 2`. -/
def findExtraSuffixes (st : State) : Option (List Str × State) :=
  if st.nameCommas.count true > 1 then
    downFrom (fun k acc => extraSuffixAt (k + 2) acc) (st.nameParts.length - 2) ([], st)
  else some ([], st)

/-- The loop of `findLastname`: the index of the last true marker, from index
`i` on, or the value held before. -/
def lastCommaIndex : List Bool → Nat → Int → Int
  | [], _, commaIndex => commaIndex
  | v :: rest, i, commaIndex => lastCommaIndex rest (i + 1) (if v then (i : Int) else commaIndex)

/-- The function `findLastname`. -/
def findLastname (st : State) : Option (Str × State) :=
  let commaIndex := lastCommaIndex st.nameCommas 0 (-1)
  let commaIndex := if commaIndex = -1 then (st.nameParts.length : Int) - 1 else commaIndex
  match getAt st.nameParts commaIndex with
  | none => none
  | some lastname =>
    match spliceOut st.nameParts commaIndex.toNat (commaIndex.toNat + 1) with
    | none => none
    | some parts => some (lastname, ⟨parts, []⟩)

/-- The function `findFirstname`. -/
def findFirstname (st : State) : Option (Str × State) :=
  match st.nameParts with
  | [] => none
  | firstname :: rest => some (firstname, ⟨rest, st.nameCommas⟩)

/-- The function `findMiddlename`. -/
def findMiddlename (st : State) : Str × State :=
  (join st.nameParts [' '], ⟨[], st.nameCommas⟩)

/-! ## The entry point -/

/-- The suffix pass and the title pass of `ParseFullname`: the parts found,
joined by a comma and a space, when more than one part is left. -/
def listStage (find : State → Option (List Str × State)) (st : State) :
    Option (Str × State) :=
  if st.nameParts.length > 1 then
    (find st).map (fun r => (join r.1 [',', ' '], r.2))
  else some ([], st)

/-- The value of `parsedName.Suffix` after the extra suffixes are added. -/
def addExtraSuffixes (suffix : Str) (extraSuffixes : List Str) : Str :=
  if extraSuffixes.length > 0 then
    if suffix ≠ [] then suffix ++ [',', ' '] ++ join extraSuffixes [',', ' ']
    else join extraSuffixes [',', ' ']
  else suffix

/-- The stages of `ParseFullname` from `joinPrefixes` on, given the nickname,
suffix and title fields already filled in. -/
def nameStages (nick suffix title : Str) (st : State) : Option (ParsedName × State) :=
  (if st.nameParts.length > 1 then joinPrefixes st else some st).bind fun st1 =>
  (if st1.nameParts.length > 1 then joinConjunctions st1 else some st1).bind fun st2 =>
  (if st2.nameParts.length > 1 then
      (findExtraSuffixes st2).map (fun r => (addExtraSuffixes suffix r.1, r.2))
    else some (suffix, st2)).bind fun sfx =>
  (if sfx.2.nameParts.length > 0 then findLastname sfx.2 else some ([], sfx.2)).bind fun last =>
  (if last.2.nameParts.length > 0 then findFirstname last.2 else some ([], last.2)).bind
    fun first =>
  let middle := if first.2.nameParts.length > 0 then findMiddlename first.2 else ([], first.2)
  some (⟨title, first.1, middle.1, last.1, nick, sfx.1⟩, middle.2)

/-- The stages of `ParseFullname` that follow `splitName`. -/
def parseStages (nick : Str) (st : State) : Option (ParsedName × State) :=
  (listStage findSuffixes st).bind fun sfx =>
  (listStage findTitles sfx.2).bind fun ttl =>
  nameStages nick sfx.1 ttl.1 ttl.2

/-- The function `ParseFullname`, from a given value of the package-level
variables: the result and the value it leaves in them. -/
def ParseFullname (st : State) (fullname : Str) : Option (ParsedName × State) :=
  let found := findNicknames fullname
  match splitName st found.2 with
  | none => none
  | some st1 => parseStages (join found.1 [',']) st1

/-! ## Notions used to state the properties -/

/-- The two package-level slices have the same length. -/
def Balanced (st : State) : Prop := st.nameParts.length = st.nameCommas.length

/-- The invariant of the inner loop of `joinPrefixes` at index `i`. -/
def PrefixInv (i : Nat) (s : State) : Prop :=
  Balanced s ∧ (i + 1 < s.nameParts.length ∨
    ∃ part, s.nameParts.get? i = some part ∧ ' ' ∈ part)

/-- The invariant of the inner loop of `joinConjunctions` in the round of the
outer loop that starts at index `i`. -/
def ConjInv (i : Nat) (acc : Int × State) : Prop :=
  Balanced acc.2 ∧
    ((acc.1 = (i : Int) ∧ i + 2 < acc.2.nameParts.length) ∨
     (acc.1 = (i : Int) - 1 ∧ ∃ part, acc.2.nameParts.get? i = some part ∧ ' ' ∈ part))

/-- A value of the package-level variables that a sequence of `ParseFullname`
calls, started when the package is loaded, can leave behind. -/
inductive Reachable : State → Prop
  | initial : Reachable State.initial
  | call (st st1 : State) (fullname : Str) (r : ParsedName) :
      Reachable st → ParseFullname st fullname = some (r, st1) → Reachable st1


/-- A part matches `list` the way the first loop of `findParts` tests it: it is
not empty and its lowered form, one trailing period stripped, is an entry. -/
def listed (list : List Str) (t : Str) : Prop := t ≠ [] ∧ partToCheck t ∈ list

instance (list : List Str) (t : Str) : Decidable (listed list t) := by
  unfold listed; infer_instance

/-- A plain token: not empty, and free of white space, commas, quotes and
brackets. -/
def plain (t : Str) : Prop :=
  t ≠ [] ∧ ∀ c ∈ t, isSpace c = false ∧ c ≠ ',' ∧ isOpener c = false ∧ isCloser c = false

instance (t : Str) : Decidable (plain t) := by
  unfold plain; infer_instance

/-- A token as it is written in the input: followed by a comma or not. -/
def word (w : Str × Bool) : Str := if w.2 then w.1 ++ [','] else w.1

/-- The input made of the given tokens, separated by single spaces. -/
def render (ws : List (Str × Bool)) : Str := join (ws.map word) [' ']

/-- The parts `n0, c1, n1, c2, ..` written as the pairs `(n0, c1), (n1, c2), ..`:
names alternating with the conjunctions that follow them. -/
def alternating : List (Str × Str) → List Str
  | [] => []
  | x :: rest => x.1 :: x.2 :: alternating rest

/-- The parts that carry a comma marker, in their order. -/
def markedParts (parts : List Str) (commas : List Bool) : List Str :=
  ((parts.zip commas).filter (fun x => x.2)).map Prod.fst

/-- The parts that carry no comma marker, in their order. -/
def unmarkedParts (parts : List Str) (commas : List Bool) : List Str :=
  ((parts.zip commas).filter (fun x => !x.2)).map Prod.fst

/-- The closer that matches an opener, in the words of the specification:
an apostrophe closes an apostrophe, a double quote a double quote, `)` closes
`(` and `]` closes `[`. -/
def closerOf (o : Char) : Option Char :=
  if o.toNat = 39 then some (Char.ofNat 39)
  else if o.toNat = 34 then some (Char.ofNat 34)
  else if o = '(' then some ')'
  else if o = '[' then some ']'
  else none

/-! ## Totality and the package-level state -/

theorem spliceOut_eq_some {α : Type} (a : List α) (lo hi : Nat) (h1 : lo ≤ hi)
    (h2 : hi ≤ a.length) : spliceOut a lo hi = some (a.take lo ++ a.drop hi) := by
  simp [spliceOut, h1, h2]

theorem length_take_append_drop {α : Type} (a : List α) (lo hi : Nat) (h1 : lo ≤ hi)
    (h2 : hi ≤ a.length) : (a.take lo ++ a.drop hi).length = a.length - (hi - lo) := by
  simp; omega

theorem forEachM_inv {σ α : Type} (body : σ → α → Option σ) (P : σ → Prop) (l : List α)
    (h : ∀ s a, a ∈ l → P s → ∃ s1, body s a = some s1 ∧ P s1) :
    ∀ s, P s → ∃ s1, forEachM body s l = some s1 ∧ P s1 := by
  induction l with
  | nil => intro s hs; exact ⟨s, rfl, hs⟩
  | cons a rest ih =>
    intro s hs
    obtain ⟨s1, h1, hP⟩ := h s a (List.mem_cons_self _ _) hs
    obtain ⟨s2, h2, hP2⟩ := ih (fun s a ha => h s a (List.mem_cons_of_mem _ ha)) s1 hP
    exact ⟨s2, by simp [forEachM, h1, h2], hP2⟩

theorem downFrom_inv {σ : Type} (body : Nat → σ → Option σ) (P : Nat → σ → Prop)
    (h : ∀ i s, P (i + 1) s → ∃ s1, body i s = some s1 ∧ P i s1) :
    ∀ n s, P n s → ∃ s1, downFrom body n s = some s1 ∧ P 0 s1 := by
  intro n
  induction n with
  | zero => intro s hs; exact ⟨s, rfl, hs⟩
  | succ n ih =>
    intro s hs
    obtain ⟨s1, h1, hP⟩ := h n s hs
    obtain ⟨s2, h2, hP2⟩ := ih s1 hP
    exact ⟨s2, by simp [downFrom, h1, h2], hP2⟩

theorem firstIndex_lt (x : Str) (l : List Str) (i : Nat) (h : firstIndex x l = some i) :
    i < l.length := by
  induction l generalizing i with
  | nil => simp [firstIndex] at h
  | cons y rest ih =>
    simp only [firstIndex] at h
    split at h
    · simp at h; subst h; simp
    · simp at h
      obtain ⟨j, hj, rfl⟩ := h
      have := ih j hj
      simp; omega

theorem clearPart_balanced (st : State) (p : Str) (h : Balanced st) :
    ∃ st1, clearPart st p = some st1 ∧ Balanced st1 := by
  unfold clearPart
  cases hf : firstIndex p st.nameParts with
  | none => exact ⟨st, rfl, h⟩
  | some f =>
    have hlt := firstIndex_lt _ _ _ hf
    have hb : st.nameParts.length = st.nameCommas.length := h
    have hc : f < st.nameCommas.length := by omega
    simp only [spliceOut_eq_some st.nameParts f (f + 1) (by omega) (by omega)]
    rw [List.get?_eq_get hc]
    simp only []
    by_cases hcond : (st.nameCommas.get ⟨f, hc⟩ = true) ∧ f + 1 ≠ st.nameCommas.length
    · rw [if_pos hcond, spliceOut_eq_some _ _ _ (by omega) (by omega)]
      refine ⟨_, rfl, ?_⟩
      simp only [Balanced]
      rw [length_take_append_drop _ _ _ (by omega) (by omega),
        length_take_append_drop _ _ _ (by omega) (by omega)]
      omega
    · rw [if_neg hcond, spliceOut_eq_some _ _ _ (by omega) (by omega)]
      refine ⟨_, rfl, ?_⟩
      simp only [Balanced]
      rw [length_take_append_drop _ _ _ (by omega) (by omega),
        length_take_append_drop _ _ _ (by omega) (by omega)]
      omega

theorem findParts_balanced (list : List Str) (st : State) (h : Balanced st) :
    ∃ st1, findParts list st = some (scanParts list st.nameParts, st1) ∧ Balanced st1 := by
  obtain ⟨st1, h1, hb⟩ := forEachM_inv clearPart Balanced (scanParts list st.nameParts)
    (fun s a _ hs => clearPart_balanced s a hs) st h
  exact ⟨st1, by simp [findParts, h1], hb⟩


theorem prefixList_no_space : ∀ p ∈ prefixList, ' ' ∉ p := by decide

theorem conjunctionList_no_space : ∀ p ∈ conjunctionList, ' ' ∉ p := by decide

theorem joinPrefixAt_inv (i : Nat) (s : State) (pref : Str) (hp : pref ∈ prefixList)
    (h : PrefixInv i s) : ∃ s1, joinPrefixAt i s pref = some s1 ∧ PrefixInv i s1 := by
  obtain ⟨hb, hcase⟩ := h
  have hb1 : s.nameParts.length = s.nameCommas.length := hb
  have hi : i < s.nameParts.length := by
    rcases hcase with h1 | ⟨part, h1, _⟩
    · omega
    · exact (List.get?_eq_some.mp h1).1
  unfold joinPrefixAt
  rw [List.get?_eq_get hi]
  simp only []
  by_cases heq : pref = s.nameParts.get ⟨i, hi⟩
  · have hi1 : i + 1 < s.nameParts.length := by
      rcases hcase with h1 | ⟨part, h1, h2⟩
      · exact h1
      · exfalso
        rw [List.get?_eq_get hi] at h1
        simp only [Option.some.injEq] at h1
        rw [← h1, ← heq] at h2
        exact prefixList_no_space pref hp h2
    rw [if_pos heq, List.get?_eq_get hi1]
    simp only []
    rw [spliceOut_eq_some _ _ _ (by omega) (by simp; omega),
      spliceOut_eq_some _ _ _ (by omega) (by omega)]
    refine ⟨_, rfl, ?_, ?_⟩
    · simp only [Balanced]
      rw [length_take_append_drop _ _ _ (by omega) (by simp; omega),
        length_take_append_drop _ _ _ (by omega) (by omega)]
      simp; omega
    · right
      refine ⟨s.nameParts.get ⟨i, hi⟩ ++ ' ' :: s.nameParts.get ⟨i + 1, hi1⟩, ?_, by simp⟩
      simp only [List.get?_eq_getElem?]
      rw [List.getElem?_append_left (by simp; omega)]
      rw [List.getElem?_take_of_lt (by omega)]
      simp [hi]
  · rw [if_neg heq]
    exact ⟨s, rfl, hb, hcase⟩

theorem joinPrefixes_balanced (st : State) (h : Balanced st) :
    ∃ st1, joinPrefixes st = some st1 ∧ Balanced st1 := by
  unfold joinPrefixes
  split
  · rename_i hlen
    obtain ⟨s1, h1, hP⟩ := downFrom_inv
      (fun i s => forEachM (joinPrefixAt i) s prefixList)
      (fun n s => Balanced s ∧ n < s.nameParts.length)
      (fun i s hs => by
        obtain ⟨s1, h1, hq⟩ := forEachM_inv (joinPrefixAt i) (PrefixInv i) prefixList
          (fun s a ha hs => joinPrefixAt_inv i s a ha hs) s ⟨hs.1, Or.inl hs.2⟩
        refine ⟨s1, h1, hq.1, ?_⟩
        rcases hq.2 with h2 | ⟨part, h2, _⟩
        · omega
        · exact (List.get?_eq_some.mp h2).1)
      (st.nameParts.length - 1) st ⟨h, by omega⟩
    exact ⟨s1, h1, hP.1⟩
  · exact ⟨st, rfl, h⟩


theorem getAt_natCast {α : Type} (a : List α) (n : Nat) : getAt a (n : Int) = a.get? n := by
  simp [getAt]

theorem exists_get?_of_lt {α : Type} (a : List α) (i : Nat) (h : i < a.length) :
    ∃ x, a.get? i = some x := ⟨a.get ⟨i, h⟩, List.get?_eq_get h⟩

theorem joinConjunctionAt_inv (i : Nat) (acc : Int × State) (conj : Str)
    (hc : conj ∈ conjunctionList) (h : ConjInv i acc) :
    ∃ acc1, joinConjunctionAt acc conj = some acc1 ∧ ConjInv i acc1 := by
  obtain ⟨j, s⟩ := acc
  obtain ⟨hb, hcase⟩ := h
  have hb1 : s.nameParts.length = s.nameCommas.length := hb
  rcases hcase with ⟨hj, hlen⟩ | ⟨hj, part, hpart, hsp⟩
  · simp only at hj hlen
    subst hj
    unfold joinConjunctionAt
    have e1 : ((i : Int) + 1) = ((i + 1 : Nat) : Int) := by push_cast; ring
    have e2 : ((i : Int) + 2) = ((i + 2 : Nat) : Int) := by push_cast; ring
    obtain ⟨left, hleft⟩ := exists_get?_of_lt s.nameParts i (by omega)
    obtain ⟨mid, hmid⟩ := exists_get?_of_lt s.nameParts (i + 1) (by omega)
    obtain ⟨right, hright⟩ := exists_get?_of_lt s.nameParts (i + 2) (by omega)
    simp only [e1, e2, getAt_natCast, Int.toNat_ofNat, hleft, hmid, hright]
    split
    · rw [spliceOut_eq_some _ _ _ (by omega) (by simp; omega),
        spliceOut_eq_some _ _ _ (by omega) (by omega)]
      have hget : (List.take (i + 1) (s.nameParts.set i (left ++ ' ' :: (mid ++ ' ' :: right))) ++
          List.drop (i + 3) (s.nameParts.set i (left ++ ' ' :: (mid ++ ' ' :: right)))).get? i =
          some (left ++ ' ' :: (mid ++ ' ' :: right)) := by
        simp only [List.get?_eq_getElem?]
        rw [List.getElem?_append_left (by simp; omega)]
        rw [List.getElem?_take_of_lt (by omega)]
        simp only [List.getElem?_set_self (show i < s.nameParts.length by omega)]
      refine ⟨_, rfl, ?_, Or.inr ⟨rfl, _, hget, by simp⟩⟩
      simp only [Balanced]
      rw [length_take_append_drop _ _ _ (by omega) (by simp; omega),
        length_take_append_drop _ _ _ (by omega) (by omega)]
      simp; omega
    · exact ⟨_, rfl, hb, Or.inl ⟨rfl, hlen⟩⟩
  · simp only at hj hpart
    subst hj
    unfold joinConjunctionAt
    have e1 : ((i : Int) - 1 + 1) = ((i : Nat) : Int) := by ring
    simp only [e1, getAt_natCast, hpart]
    have hne : conj ≠ part := by
      intro he
      subst he
      exact conjunctionList_no_space _ hc hsp
    rw [if_neg hne]
    exact ⟨_, rfl, hb, Or.inr ⟨rfl, part, hpart, hsp⟩⟩

theorem conjunctionLoop_balanced :
    ∀ (fuel : Nat) (i : Int) (st : State), Balanced st → i < fuel →
      (0 ≤ i → i + 2 < st.nameParts.length) →
      ∃ st1, conjunctionLoop fuel i st = some st1 ∧ Balanced st1 := by
  intro fuel
  induction fuel with
  | zero =>
    intro i st hb hi _
    refine ⟨st, ?_, hb⟩
    unfold conjunctionLoop
    rw [if_pos (by simpa using hi)]
  | succ f ih =>
    intro i st hb hi hlen
    unfold conjunctionLoop
    by_cases hneg : i < 0
    · rw [if_pos hneg]; exact ⟨st, rfl, hb⟩
    · rw [if_neg hneg]
      have h0 : 0 ≤ i := by omega
      obtain ⟨n, rfl⟩ := Int.eq_ofNat_of_zero_le h0
      have hlen1 := hlen h0
      obtain ⟨⟨i1, st1⟩, h1, hq⟩ := forEachM_inv joinConjunctionAt (ConjInv n) conjunctionList
        (fun s a ha hs => joinConjunctionAt_inv n s a ha hs) ((n : Int), st)
        ⟨hb, Or.inl ⟨rfl, by simpa using (by omega : n + 2 < st.nameParts.length)⟩⟩
      simp only [h1]
      obtain ⟨hb1, hcase⟩ := hq
      dsimp only at hb1 hcase
      apply ih _ _ hb1
      · rcases hcase with ⟨hj, _⟩ | ⟨hj, _⟩ <;> omega
      · intro hpos
        rcases hcase with ⟨hj, hl⟩ | ⟨hj, part, hpart, _⟩
        · omega
        · have := (List.get?_eq_some.mp hpart).1
          omega

theorem joinConjunctions_balanced (st : State) (h : Balanced st) :
    ∃ st1, joinConjunctions st = some st1 ∧ Balanced st1 := by
  unfold joinConjunctions
  split
  · rename_i hlen
    exact conjunctionLoop_balanced _ _ st h (by omega) (by intro; omega)
  · exact ⟨st, rfl, h⟩


theorem extraSuffixAt_balanced (i : Nat) (acc : List Str × State) (hb : Balanced acc.2)
    (hi : i < acc.2.nameParts.length) :
    ∃ acc1, extraSuffixAt i acc = some acc1 ∧ Balanced acc1.2 ∧
      acc.2.nameParts.length ≤ acc1.2.nameParts.length + 1 := by
  have hb1 : acc.2.nameParts.length = acc.2.nameCommas.length := hb
  obtain ⟨comma, hcomma⟩ := exists_get?_of_lt acc.2.nameCommas i (by omega)
  obtain ⟨part, hpart⟩ := exists_get?_of_lt acc.2.nameParts i hi
  unfold extraSuffixAt
  simp only [hcomma, hpart]
  split
  · rw [spliceOut_eq_some _ _ _ (by omega) (by omega),
      spliceOut_eq_some _ _ _ (by omega) (by omega)]
    refine ⟨_, rfl, ?_, ?_⟩
    · simp only [Balanced]
      rw [length_take_append_drop _ _ _ (by omega) (by omega),
        length_take_append_drop _ _ _ (by omega) (by omega)]
      omega
    · simp only []
      rw [length_take_append_drop _ _ _ (by omega) (by omega)]
      omega
  · exact ⟨acc, rfl, hb, by omega⟩

theorem findExtraSuffixes_balanced (st : State) (h : Balanced st) :
    ∃ r, findExtraSuffixes st = some r ∧ Balanced r.2 := by
  unfold findExtraSuffixes
  split
  · obtain ⟨r, h1, hP⟩ := downFrom_inv (fun k acc => extraSuffixAt (k + 2) acc)
      (fun n acc => Balanced acc.2 ∧ (n = 0 ∨ n + 2 ≤ acc.2.nameParts.length))
      (fun k acc hs => by
        obtain ⟨acc1, h1, hb1, hl⟩ := extraSuffixAt_balanced (k + 2) acc hs.1
          (by have := hs.2; omega)
        refine ⟨acc1, h1, hb1, ?_⟩
        have := hs.2
        omega)
      (st.nameParts.length - 2) ([], st) ⟨h, by dsimp only; omega⟩
    exact ⟨r, h1, hP.1⟩
  · exact ⟨_, rfl, h⟩

theorem lastCommaIndex_bounds (l : List Bool) :
    ∀ (i : Nat) (acc : Int), (acc = -1 ∨ (0 ≤ acc ∧ acc < i + l.length)) →
      (lastCommaIndex l i acc = -1 ∨
        (0 ≤ lastCommaIndex l i acc ∧ lastCommaIndex l i acc < i + l.length)) := by
  induction l with
  | nil => intro i acc h; simpa [lastCommaIndex] using h
  | cons v rest ih =>
    intro i acc h
    simp only [lastCommaIndex, List.length_cons]
    have := ih (i + 1) (if v = true then (i : Int) else acc) (by
      split
      · right; constructor <;> omega
      · rcases h with h | h
        · left; exact h
        · right; simp only [List.length_cons] at h; push_cast at h ⊢; omega)
    push_cast at this ⊢
    rcases this with h1 | h1
    · left; exact h1
    · right; omega

theorem findLastname_spec (st : State) (hb : Balanced st) (hl : 0 < st.nameParts.length) :
    ∃ last st1, findLastname st = some (last, st1) ∧ st1.nameCommas = [] := by
  have hb1 : st.nameParts.length = st.nameCommas.length := hb
  have hbound := lastCommaIndex_bounds st.nameCommas 0 (-1) (Or.inl rfl)
  unfold findLastname
  simp only []
  generalize lastCommaIndex st.nameCommas 0 (-1) = ci at hbound
  have hidx : ∃ n : Nat, (if ci = -1 then (st.nameParts.length : Int) - 1 else ci) = (n : Int) ∧
      n < st.nameParts.length := by
    split
    · exact ⟨st.nameParts.length - 1, by omega, by omega⟩
    · rename_i hne
      rcases hbound with h | h
      · exact absurd h hne
      · obtain ⟨n, rfl⟩ := Int.eq_ofNat_of_zero_le h.1
        exact ⟨n, rfl, by push_cast at h; omega⟩
  obtain ⟨n, hn, hlt⟩ := hidx
  obtain ⟨last, hlast⟩ := exists_get?_of_lt st.nameParts n hlt
  rw [hn, getAt_natCast, hlast]
  simp only [Int.toNat_ofNat]
  rw [spliceOut_eq_some _ _ _ (by omega) (by omega)]
  exact ⟨_, _, rfl, rfl⟩

/-- The loop of `splitName` never panics: the marker it sets has just been
appended or lies before it. -/
theorem splitLoop_total (pieces : List Str) :
    ∀ (i : Nat) (commas : List Bool), i ≤ commas.length →
      ∃ parts commas1, splitLoop pieces i commas = some (parts, commas1) ∧
        parts.length = pieces.length ∧ commas1.length = commas.length + pieces.length := by
  induction pieces with
  | nil => intro i commas _; exact ⟨[], commas, rfl, rfl, rfl⟩
  | cons v rest ih =>
    intro i commas hi
    simp only [splitLoop]
    split
    · have hset : setAt (commas ++ [false]) i true = some ((commas ++ [false]).set i true) := by
        simp [setAt]; omega
      rw [hset]
      obtain ⟨parts, commas1, h1, h2, h3⟩ := ih (i + 1) ((commas ++ [false]).set i true)
        (by simp; omega)
      simp only [h1]
      exact ⟨_, _, rfl, by simp [h2], by simp [h3]; omega⟩
    · obtain ⟨parts, commas1, h1, h2, h3⟩ := ih (i + 1) (commas ++ [false]) (by simp; omega)
      simp only [h1]
      exact ⟨_, _, rfl, by simp [h2], by simp [h3]; omega⟩

theorem splitName_balanced (st : State) (fullname : Str) (h : st.nameCommas = []) :
    ∃ st1, splitName st fullname = some st1 ∧ Balanced st1 := by
  obtain ⟨parts, commas1, h1, h2, h3⟩ :=
    splitLoop_total (splitOnSpace (trimSpace (collapseSpaces false fullname))) 0 st.nameCommas
      (Nat.zero_le _)
  refine ⟨⟨parts, commas1⟩, by simp [splitName, h1], ?_⟩
  simp only [Balanced, h2, h3, h]
  simp


theorem nameStages_total (nick suffix title : Str) (st : State) (hb : Balanced st) :
    ∃ r, nameStages nick suffix title st = some (r, State.initial) := by
  unfold nameStages
  obtain ⟨st1, h1, hb1⟩ : ∃ st1, (if st.nameParts.length > 1 then joinPrefixes st else some st)
      = some st1 ∧ Balanced st1 := by
    split
    · exact joinPrefixes_balanced st hb
    · exact ⟨st, rfl, hb⟩
  obtain ⟨st2, h2, hb2⟩ : ∃ st2, (if st1.nameParts.length > 1 then joinConjunctions st1
      else some st1) = some st2 ∧ Balanced st2 := by
    split
    · exact joinConjunctions_balanced st1 hb1
    · exact ⟨st1, rfl, hb1⟩
  obtain ⟨r3, h3, hb3⟩ : ∃ r3, (if st2.nameParts.length > 1 then
      (findExtraSuffixes st2).map (fun r => (addExtraSuffixes suffix r.1, r.2))
      else some (suffix, st2)) = some r3 ∧ Balanced r3.2 := by
    split
    · obtain ⟨r, hr, hbr⟩ := findExtraSuffixes_balanced st2 hb2
      exact ⟨_, by rw [hr]; rfl, hbr⟩
    · exact ⟨_, rfl, hb2⟩
  obtain ⟨suffix3, st3⟩ := r3
  obtain ⟨r4, h4, hc4⟩ : ∃ r4, (if st3.nameParts.length > 0 then findLastname st3
      else some ([], st3)) = some r4 ∧ r4.2.nameCommas = [] := by
    split
    · rename_i hl
      obtain ⟨last, st4, hr, hc⟩ := findLastname_spec st3 hb3 hl
      exact ⟨_, hr, hc⟩
    · rename_i hl
      refine ⟨_, rfl, ?_⟩
      have hb3a : st3.nameParts.length = st3.nameCommas.length := hb3
      exact List.length_eq_zero.mp (by dsimp only; omega)
  obtain ⟨last, st4⟩ := r4
  simp only [h1, h2, h3, h4, Option.some_bind]
  dsimp only at hc4
  obtain ⟨parts4, commas4⟩ := st4
  dsimp only at hc4
  subst hc4
  cases parts4 with
  | nil => exact ⟨_, rfl⟩
  | cons p rest =>
    cases rest with
    | nil => simp [findFirstname, State.initial]
    | cons q rest2 => simp [findFirstname, findMiddlename, State.initial]

theorem listStage_balanced (list : List Str) (st : State) (hb : Balanced st) :
    ∃ r, listStage (findParts list) st = some r ∧ Balanced r.2 := by
  unfold listStage
  split
  · obtain ⟨st1, h1, hb1⟩ := findParts_balanced list st hb
    exact ⟨_, by rw [h1]; rfl, hb1⟩
  · exact ⟨_, rfl, hb⟩

theorem parseStages_total (nick : Str) (st : State) (hb : Balanced st) :
    ∃ r, parseStages nick st = some (r, State.initial) := by
  unfold parseStages
  obtain ⟨⟨suffix, st1⟩, h1, hb1⟩ := listStage_balanced suffixList st hb
  obtain ⟨⟨title, st2⟩, h2, hb2⟩ := listStage_balanced titleList st1 hb1
  obtain ⟨r, hr⟩ := nameStages_total nick suffix title st2 hb2
  refine ⟨r, ?_⟩
  have e1 : findSuffixes = findParts suffixList := rfl
  have e2 : findTitles = findParts titleList := rfl
  simp only [e1, e2, h1, h2, Option.some_bind, hr]

theorem ParseFullname_total (st : State) (fullname : Str) (h : st.nameCommas = []) :
    ∃ r, ParseFullname st fullname = some (r, State.initial) := by
  obtain ⟨st1, h1, hb1⟩ := splitName_balanced st (findNicknames fullname).2 h
  obtain ⟨r, hr⟩ := parseStages_total (join (findNicknames fullname).1 [',']) st1 hb1
  exact ⟨r, by simp only [ParseFullname, h1, hr]⟩

/-- The function `splitName` reads `nameCommas` only: `nameParts` is overwritten. -/
theorem splitName_congr (st st1 : State) (fullname : Str) (h : st.nameCommas = st1.nameCommas) :
    splitName st fullname = splitName st1 fullname := by
  simp only [splitName, h]

theorem Reachable.nameCommas_nil (st : State) (h : Reachable st) : st.nameCommas = [] := by
  induction h with
  | initial => rfl
  | call st st1 fullname r _ hcall ih =>
    obtain ⟨r1, h1⟩ := ParseFullname_total st fullname ih
    rw [h1] at hcall
    simp only [Option.some.injEq, Prod.mk.injEq] at hcall
    rw [← hcall.2]
    rfl


/-! ## Tokenization of plain tokens separated by single spaces -/

theorem isSpace_of_isSep (c : Char) (h : isSep c = true) : isSpace c = true := by
  simp only [isSep, isPerlSpace, isZs, isSpace, Bool.or_eq_true, Bool.and_eq_true,
    decide_eq_true_eq] at h ⊢
  omega

theorem join_cons_cons (a b : Str) (r : List Str) (sep : Str) :
    join (a :: b :: r) sep = a ++ sep ++ join (b :: r) sep := by
  simp [join, List.intercalate]

theorem join_singleton (a : Str) (sep : Str) : join [a] sep = a := by
  simp [join, List.intercalate]

theorem join_nil (sep : Str) : join [] sep = [] := by
  simp [join, List.intercalate]

theorem matchSpan_none (s : Str) (h : ∀ c ∈ s, isOpener c = false) : matchSpan s = none := by
  cases s with
  | nil => rfl
  | cons o rest => simp [matchSpan, h o (List.mem_cons_self _ _)]

theorem matchNickname_none (s : Str) (h : ∀ c ∈ s, isOpener c = false) :
    matchNickname s = none := by
  cases s with
  | nil => rfl
  | cons c rest =>
    have h1 := matchSpan_none (c :: rest) h
    have h2 := matchSpan_none rest (fun d hd => h d (List.mem_cons_of_mem _ hd))
    simp [matchNickname, h1, h2]

theorem findAllSubmatch_nil (s : Str) (h : ∀ c ∈ s, isOpener c = false) :
    findAllSubmatch 0 s = [] := by
  induction s with
  | nil => rfl
  | cons c rest ih =>
    simp only [findAllSubmatch, matchNickname_none (c :: rest) h]
    exact ih (fun d hd => h d (List.mem_cons_of_mem _ hd))

theorem findNicknames_of_no_opener (s : Str) (h : ∀ c ∈ s, isOpener c = false) :
    findNicknames s = ([], s) := by
  simp [findNicknames, findAllSubmatch_nil s h]

theorem collapseSpaces_append (w r : Str) (b : Bool) (hw : ∀ c ∈ w, isSep c = false)
    (hne : w ≠ []) : collapseSpaces b (w ++ r) = w ++ collapseSpaces false r := by
  induction w generalizing b with
  | nil => exact absurd rfl hne
  | cons c rest ih =>
    have hc := hw c (List.mem_cons_self _ _)
    cases rest with
    | nil => simp [collapseSpaces, hc]
    | cons d rest2 =>
      simp only [List.cons_append, collapseSpaces, hc]
      have := ih false (fun x hx => hw x (List.mem_cons_of_mem _ hx)) (by simp)
      simpa using this

theorem collapseSpaces_tight (w : Str) (hw : ∀ c ∈ w, isSep c = false) :
    collapseSpaces false w = w := by
  cases w with
  | nil => rfl
  | cons c rest =>
    have := collapseSpaces_append (c :: rest) [] false hw (by simp)
    simpa [collapseSpaces] using this

theorem collapseSpaces_join (ws : List Str) (h : ∀ w ∈ ws, w ≠ [] ∧ ∀ c ∈ w, isSep c = false) :
    collapseSpaces false (join ws [' ']) = join ws [' '] := by
  induction ws with
  | nil => rfl
  | cons a rest ih =>
    cases rest with
    | nil => rw [join_singleton]; exact collapseSpaces_tight a (h a (List.mem_cons_self _ _)).2
    | cons b rest2 =>
      have ha := h a (List.mem_cons_self _ _)
      have hb := h b (List.mem_cons_of_mem _ (List.mem_cons_self _ _))
      have ih1 := ih (fun w hw => h w (List.mem_cons_of_mem _ hw))
      rw [join_cons_cons, List.append_assoc, collapseSpaces_append _ _ _ ha.2 ha.1]
      congr 1
      obtain ⟨d, tl, hd⟩ : ∃ d tl, join (b :: rest2) [' '] = d :: tl ∧ isSep d = false := by
        cases hbb : b with
        | nil => exact absurd hbb hb.1
        | cons d tl =>
          have hd := hb.2 d (by rw [hbb]; exact List.mem_cons_self _ _)
          cases rest2 with
          | nil => exact ⟨d, tl, by rw [join_singleton], hd⟩
          | cons e rest3 => exact ⟨d, _, by rw [join_cons_cons]; rfl, hd⟩
      rw [hd.1] at ih1 ⊢
      have hsp : isSep ' ' = true := by decide
      have ih2 : collapseSpaces false tl = tl := by
        simpa [collapseSpaces, hd.2] using ih1
      simp [collapseSpaces, hsp, hd.2, ih2]

theorem dropWhile_eq_self (p : Char → Bool) (l : Str)
    (h : ∀ c, l.head? = some c → p c = false) : l.dropWhile p = l := by
  cases l with
  | nil => rfl
  | cons c rest => simp [List.dropWhile, h c rfl]

theorem trimSpace_eq_self (s : Str) (h1 : ∀ c, s.head? = some c → isSpace c = false)
    (h2 : ∀ c, s.getLast? = some c → isSpace c = false) : trimSpace s = s := by
  unfold trimSpace
  rw [dropWhile_eq_self _ _ h1, dropWhile_eq_self _ _ (by simpa using h2), List.reverse_reverse]

theorem splitOnSpace_tight (w : Str) (hw : ∀ c ∈ w, c ≠ ' ') : splitOnSpace w = [w] := by
  induction w with
  | nil => rfl
  | cons c rest ih =>
    simp [splitOnSpace, hw c (List.mem_cons_self _ _),
      ih (fun x hx => hw x (List.mem_cons_of_mem _ hx))]

theorem splitOnSpace_append (w r : Str) (hw : ∀ c ∈ w, c ≠ ' ') :
    splitOnSpace (w ++ ' ' :: r) = w :: splitOnSpace r := by
  induction w with
  | nil => simp [splitOnSpace]
  | cons c rest ih =>
    simp [splitOnSpace, hw c (List.mem_cons_self _ _),
      ih (fun x hx => hw x (List.mem_cons_of_mem _ hx))]

theorem splitOnSpace_join (ws : List Str) (hne : ws ≠ []) (h : ∀ w ∈ ws, ∀ c ∈ w, c ≠ ' ') :
    splitOnSpace (join ws [' ']) = ws := by
  induction ws with
  | nil => exact absurd rfl hne
  | cons a rest ih =>
    cases rest with
    | nil => rw [join_singleton]; exact splitOnSpace_tight a (h a (List.mem_cons_self _ _))
    | cons b rest2 =>
      rw [join_cons_cons, List.append_assoc, List.singleton_append,
        splitOnSpace_append _ _ (h a (List.mem_cons_self _ _)),
        ih (by simp) (fun w hw => h w (List.mem_cons_of_mem _ hw))]

theorem word_ne_nil (w : Str × Bool) (h : plain w.1) : word w ≠ [] := by
  unfold word
  split
  · simp
  · exact h.1

theorem word_chars (w : Str × Bool) (h : plain w.1) :
    ∀ c ∈ word w, isSpace c = false ∧ isOpener c = false := by
  intro c hc
  unfold word at hc
  have hcomma : isSpace ',' = false ∧ isOpener ',' = false := by decide
  split at hc
  · rcases List.mem_append.mp hc with h1 | h1
    · exact ⟨(h.2 c h1).1, (h.2 c h1).2.2.1⟩
    · rw [List.mem_singleton.mp h1]; exact hcomma
  · exact ⟨(h.2 c hc).1, (h.2 c hc).2.2.1⟩

theorem isSep_false_of_isSpace_false (c : Char) (h : isSpace c = false) : isSep c = false := by
  cases hs : isSep c with
  | false => rfl
  | true => rw [isSpace_of_isSep c hs] at h; exact absurd h (by decide)

theorem ne_space_of_isSpace_false (c : Char) (h : isSpace c = false) : c ≠ ' ' := by
  intro hc
  subst hc
  exact absurd h (by decide)

theorem join_ne_nil (a : Str) (rest : List Str) (ha : a ≠ []) : join (a :: rest) [' '] ≠ [] := by
  cases rest with
  | nil => rw [join_singleton]; exact ha
  | cons b r => rw [join_cons_cons]; simp [ha]

theorem join_head (ws : List Str) (h : ∀ w ∈ ws, w ≠ [] ∧ ∀ c ∈ w, isSpace c = false) :
    ∀ c, (join ws [' ']).head? = some c → isSpace c = false := by
  intro c hc
  cases ws with
  | nil => simp [join_nil] at hc
  | cons a rest =>
    have ha := h a (List.mem_cons_self _ _)
    cases ha1 : a with
    | nil => exact absurd ha1 ha.1
    | cons d tl =>
      have hd : (join (a :: rest) [' ']).head? = some d := by
        cases rest with
        | nil => rw [join_singleton, ha1]; rfl
        | cons b r => rw [join_cons_cons, ha1]; rfl
      rw [hd] at hc
      simp only [Option.some.injEq] at hc
      subst hc
      exact ha.2 d (by rw [ha1]; exact List.mem_cons_self _ _)

theorem join_getLast (ws : List Str) (h : ∀ w ∈ ws, w ≠ [] ∧ ∀ c ∈ w, isSpace c = false) :
    ∀ c, (join ws [' ']).getLast? = some c → isSpace c = false := by
  induction ws with
  | nil => intro c hc; simp [join_nil] at hc
  | cons a rest ih =>
    intro c hc
    have ha := h a (List.mem_cons_self _ _)
    cases rest with
    | nil =>
      rw [join_singleton] at hc
      exact ha.2 c (List.mem_of_mem_getLast? hc)
    | cons b r =>
      have hb := h b (List.mem_cons_of_mem _ (List.mem_cons_self _ _))
      rw [join_cons_cons, List.getLast?_append] at hc
      have hne := join_ne_nil b r hb.1
      obtain ⟨x, hx⟩ : ∃ x, (join (b :: r) [' ']).getLast? = some x := by
        cases hj : (join (b :: r) [' ']).getLast? with
        | none => exact absurd (List.getLast?_eq_none_iff.mp hj) hne
        | some x => exact ⟨x, rfl⟩
      rw [hx] at hc
      simp only [Option.or, Option.some.injEq] at hc
      subst hc
      exact ih (fun w hw => h w (List.mem_cons_of_mem _ hw)) x hx

theorem mem_join (ws : List Str) (c : Char) (hc : c ∈ join ws [' ']) :
    c = ' ' ∨ ∃ w ∈ ws, c ∈ w := by
  induction ws with
  | nil => simp [join_nil] at hc
  | cons a rest ih =>
    cases rest with
    | nil => rw [join_singleton] at hc; exact Or.inr ⟨a, List.mem_cons_self _ _, hc⟩
    | cons b r =>
      rw [join_cons_cons] at hc
      rcases List.mem_append.mp hc with h1 | h1
      · rcases List.mem_append.mp h1 with h2 | h2
        · exact Or.inr ⟨a, List.mem_cons_self _ _, h2⟩
        · exact Or.inl (List.mem_singleton.mp h2)
      · rcases ih h1 with h2 | ⟨w, hw, hcw⟩
        · exact Or.inl h2
        · exact Or.inr ⟨w, List.mem_cons_of_mem _ hw, hcw⟩

theorem plain_trimSpace (t : Str) (h : plain t) : trimSpace t = t :=
  trimSpace_eq_self t
    (fun c hc => (h.2 c (List.mem_of_mem_head? hc)).1)
    (fun c hc => (h.2 c (List.mem_of_mem_getLast? hc)).1)

theorem plain_hasSuffix (t : Str) (h : plain t) : hasSuffix ',' t = false := by
  unfold hasSuffix
  cases hl : t.getLast? with
  | none => rfl
  | some c =>
    have := (h.2 c (List.mem_of_mem_getLast? hl)).2.1
    simpa using this

theorem splitLoop_words (ws : List (Str × Bool)) (h : ∀ w ∈ ws, plain w.1) :
    ∀ (commas : List Bool),
      splitLoop (ws.map word) commas.length commas =
        some (ws.map Prod.fst, commas ++ ws.map Prod.snd) := by
  induction ws with
  | nil => intro commas; simp [splitLoop]
  | cons w rest ih =>
    intro commas
    obtain ⟨t, b⟩ := w
    have ht : plain t := h (t, b) (List.mem_cons_self _ _)
    have ih1 := ih (fun w hw => h w (List.mem_cons_of_mem _ hw))
    cases b with
    | true =>
      have hs : hasSuffix ',' (t ++ [',']) = true := by simp [hasSuffix]
      have hset : setAt (commas ++ [false]) commas.length true = some (commas ++ [true]) := by
        simp [setAt]
      have := ih1 (commas ++ [true])
      simp only [List.length_append, List.length_singleton] at this
      simp [splitLoop, word, hs, trimSuffix, hset, this]
    | false =>
      have := ih1 (commas ++ [false])
      simp only [List.length_append, List.length_singleton] at this
      simp [splitLoop, word, plain_hasSuffix t ht, plain_trimSpace t ht, this]

theorem render_words (ws : List (Str × Bool)) (h : ∀ w ∈ ws, plain w.1) :
    ∀ w ∈ ws.map word, w ≠ [] ∧ ∀ c ∈ w, isSpace c = false := by
  intro w hw
  obtain ⟨x, hx, rfl⟩ := List.mem_map.mp hw
  exact ⟨word_ne_nil x (h x hx), fun c hc => (word_chars x (h x hx) c hc).1⟩

/-- An input made of plain tokens separated by single spaces, each followed by
a comma or not, has no nickname span. -/
theorem findNicknames_render (ws : List (Str × Bool)) (h : ∀ w ∈ ws, plain w.1) :
    findNicknames (render ws) = ([], render ws) := by
  apply findNicknames_of_no_opener
  intro c hc
  rcases mem_join _ c hc with h1 | ⟨w, hw1, hcw⟩
  · subst h1; decide
  · obtain ⟨x, hx, rfl⟩ := List.mem_map.mp hw1
    exact (word_chars x (h x hx) c hcw).2

/-- An input made of plain tokens separated by single spaces, each followed by
a comma or not, is split into those tokens and markers. -/
theorem splitName_render (ws : List (Str × Bool)) (hne : ws ≠ []) (h : ∀ w ∈ ws, plain w.1) :
    splitName State.initial (render ws) = some ⟨ws.map Prod.fst, ws.map Prod.snd⟩ := by
  have hw := render_words ws h
  have hcol : collapseSpaces false (render ws) = render ws :=
    collapseSpaces_join _ (fun w hw1 =>
      ⟨(hw w hw1).1, fun c hc => isSep_false_of_isSpace_false c ((hw w hw1).2 c hc)⟩)
  have htrim : trimSpace (render ws) = render ws :=
    trimSpace_eq_self _ (join_head _ hw) (join_getLast _ hw)
  have hsplit : splitOnSpace (render ws) = ws.map word :=
    splitOnSpace_join _ (by simpa using hne)
      (fun w hw1 c hc => ne_space_of_isSpace_false c ((hw w hw1).2 c hc))
  have hloop := splitLoop_words ws h []
  simp only [List.length_nil, List.nil_append] at hloop
  simp only [splitName, hcol, htrim, hsplit, State.initial, hloop]

theorem ParseFullname_render (ws : List (Str × Bool)) (hne : ws ≠ [])
    (h : ∀ w ∈ ws, plain w.1) :
    ParseFullname State.initial (render ws) =
      parseStages [] ⟨ws.map Prod.fst, ws.map Prod.snd⟩ := by
  simp only [ParseFullname, findNicknames_render ws h, splitName_render ws hne h, join_nil]

/-- Writing a plain token and a space in front of plain tokens separated by
single spaces puts that token, without comma marker, in front of the tokens. -/
theorem splitName_token_render (T : Str) (ws : List (Str × Bool)) (hT : plain T)
    (h : ∀ w ∈ ws, plain w.1) (hne : ws ≠ []) :
    (findNicknames (T ++ ' ' :: render ws)).1 = (findNicknames (render ws)).1 ∧
    splitName State.initial (findNicknames (render ws)).2 =
      some ⟨ws.map Prod.fst, ws.map Prod.snd⟩ ∧
    splitName State.initial (findNicknames (T ++ ' ' :: render ws)).2 =
      some ⟨T :: ws.map Prod.fst, false :: ws.map Prod.snd⟩ := by
  have hr : T ++ ' ' :: render ws = render ((T, false) :: ws) := by
    cases ws with
    | nil => exact absurd rfl hne
    | cons w rest => simp [render, word, join_cons_cons]
  have h1 : ∀ w ∈ (T, false) :: ws, plain w.1 := by
    intro w hw
    rcases List.mem_cons.mp hw with e | e
    · rw [e]; exact hT
    · exact h w e
  rw [hr, findNicknames_render _ h1, findNicknames_render _ h]
  exact ⟨rfl, splitName_render ws hne h, splitName_render _ (by simp) h1⟩

/-! ## Stages that find nothing -/

theorem scanParts_unlisted (list : List Str) (parts : List Str)
    (h : ∀ t ∈ parts, ¬ listed list t) : scanParts list parts = [] := by
  induction parts with
  | nil => rfl
  | cons t rest ih =>
    have ih1 := ih (fun x hx => h x (List.mem_cons_of_mem _ hx))
    have ht := h t (List.mem_cons_self _ _)
    unfold scanParts
    split
    · exact ih1
    · rename_i hne
      have : partToCheck t ∉ list := fun hm => ht ⟨hne, hm⟩
      rw [List.count_eq_zero.mpr this, ih1]
      rfl

theorem findParts_unlisted (list : List Str) (st : State)
    (h : ∀ t ∈ st.nameParts, ¬ listed list t) : findParts list st = some ([], st) := by
  simp [findParts, scanParts_unlisted list st.nameParts h, forEachM]

theorem listStage_unlisted (list : List Str) (st : State)
    (h : ∀ t ∈ st.nameParts, ¬ listed list t) :
    listStage (findParts list) st = some ([], st) := by
  unfold listStage
  split
  · rw [findParts_unlisted list st h]; rfl
  · rfl

theorem forEachM_fixed {σ α : Type} (body : σ → α → Option σ) (s : σ) (l : List α)
    (h : ∀ a ∈ l, body s a = some s) : forEachM body s l = some s := by
  induction l with
  | nil => rfl
  | cons a rest ih =>
    simp only [forEachM, h a (List.mem_cons_self _ _)]
    exact ih (fun x hx => h x (List.mem_cons_of_mem _ hx))

theorem downFrom_fixed {σ : Type} (body : Nat → σ → Option σ) (s : σ) (n : Nat)
    (h : ∀ i, i < n → body i s = some s) : downFrom body n s = some s := by
  induction n with
  | zero => rfl
  | succ n ih =>
    simp only [downFrom, h n (Nat.lt_succ_self n)]
    exact ih (fun i hi => h i (Nat.lt_succ_of_lt hi))

theorem joinPrefixes_fixed (st : State) (h : ∀ t ∈ st.nameParts, t ∉ prefixList) :
    joinPrefixes st = some st := by
  unfold joinPrefixes
  split
  · apply downFrom_fixed
    intro i hi
    apply forEachM_fixed
    intro pref hp
    obtain ⟨part, hpart⟩ := exists_get?_of_lt st.nameParts i (by omega)
    have hne : pref ≠ part := by
      intro he
      subst he
      exact h pref (List.get?_mem hpart) hp
    unfold joinPrefixAt
    rw [hpart]
    simp only [if_neg hne]
  · rfl

theorem conjunctionLoop_fixed (st : State) (h : ∀ t ∈ st.nameParts, t ∉ conjunctionList) :
    ∀ (fuel : Nat) (i : Int), i < fuel → (0 ≤ i → i + 1 < st.nameParts.length) →
      conjunctionLoop fuel i st = some st := by
  intro fuel
  induction fuel with
  | zero =>
    intro i hi _
    unfold conjunctionLoop
    rw [if_pos (by simpa using hi)]
  | succ f ih =>
    intro i hi hlen
    unfold conjunctionLoop
    by_cases hneg : i < 0
    · rw [if_pos hneg]
    · rw [if_neg hneg]
      have h0 : 0 ≤ i := by omega
      obtain ⟨n, rfl⟩ := Int.eq_ofNat_of_zero_le h0
      have hlen1 := hlen h0
      obtain ⟨mid, hmid⟩ := exists_get?_of_lt st.nameParts (n + 1) (by omega)
      have hfix : forEachM joinConjunctionAt ((n : Int), st) conjunctionList
          = some ((n : Int), st) := by
        apply forEachM_fixed
        intro conj hc
        have hne : conj ≠ mid := by
          intro he
          subst he
          exact h conj (List.get?_mem hmid) hc
        have e1 : ((n : Int) + 1) = ((n + 1 : Nat) : Int) := by push_cast; ring
        unfold joinConjunctionAt
        simp only [e1, getAt_natCast, hmid, if_neg hne]
      simp only [hfix]
      exact ih _ (by omega) (by intro; omega)

theorem joinConjunctions_fixed (st : State) (h : ∀ t ∈ st.nameParts, t ∉ conjunctionList) :
    joinConjunctions st = some st := by
  unfold joinConjunctions
  split
  · exact conjunctionLoop_fixed st h _ _ (by omega) (by intro; omega)
  · rfl

theorem findExtraSuffixes_fixed (st : State) (h : st.nameCommas.count true ≤ 1) :
    findExtraSuffixes st = some ([], st) := by
  unfold findExtraSuffixes
  rw [if_neg (by omega)]

theorem addExtraSuffixes_nil (suffix : Str) : addExtraSuffixes suffix [] = suffix := by
  simp [addExtraSuffixes]

/-- With no prefix and no conjunction among the parts and at most one comma
marker, only the last three stages of `nameStages` do anything. -/
theorem nameStages_fixed (nick suffix title : Str) (st : State)
    (hp : ∀ t ∈ st.nameParts, t ∉ prefixList) (hc : ∀ t ∈ st.nameParts, t ∉ conjunctionList)
    (hk : st.nameCommas.count true ≤ 1) :
    nameStages nick suffix title st =
      (if st.nameParts.length > 0 then findLastname st else some ([], st)).bind fun last =>
      (if last.2.nameParts.length > 0 then findFirstname last.2 else some ([], last.2)).bind
        fun first =>
      some (⟨title, first.1,
          (if first.2.nameParts.length > 0 then findMiddlename first.2 else ([], first.2)).1,
          last.1, nick, suffix⟩,
        (if first.2.nameParts.length > 0 then findMiddlename first.2 else ([], first.2)).2) := by
  unfold nameStages
  simp only [joinPrefixes_fixed st hp, joinConjunctions_fixed st hc,
    findExtraSuffixes_fixed st hk, ite_self, Option.some_bind, Option.map_some',
    addExtraSuffixes_nil]

theorem lastCommaIndex_false (n : Nat) (i : Nat) (acc : Int) :
    lastCommaIndex (List.replicate n false) i acc = acc := by
  induction n generalizing i with
  | zero => rfl
  | succ n ih => simp [List.replicate_succ, lastCommaIndex, ih]

/-! ## Last, first and middle name -/

theorem findLastname_no_comma (pre : List Str) (last : Str) (n : Nat) :
    findLastname ⟨pre ++ [last], List.replicate n false⟩ = some (last, ⟨pre, []⟩) := by
  unfold findLastname
  simp only [lastCommaIndex_false, if_true]
  have e : ((pre ++ [last]).length : Int) - 1 = ((pre.length : Nat) : Int) := by simp
  rw [e, getAt_natCast]
  simp only [Int.toNat_ofNat]
  rw [spliceOut_eq_some _ _ _ (by omega) (by simp)]
  simp

theorem findLastname_first_comma (l : Str) (rest : List Str) (n : Nat) :
    findLastname ⟨l :: rest, true :: List.replicate n false⟩ = some (l, ⟨rest, []⟩) := by
  unfold findLastname
  simp only [lastCommaIndex, lastCommaIndex_false, if_true]
  simp [getAt, spliceOut]

theorem count_true_replicate_false (n : Nat) : (List.replicate n false).count true = 0 := by
  simp [List.count_replicate]

theorem nameStages_eval (nick suffix title last first : Str) (middle : List Str) (st : State)
    (hp : ∀ t ∈ st.nameParts, t ∉ prefixList) (hc : ∀ t ∈ st.nameParts, t ∉ conjunctionList)
    (hk : st.nameCommas.count true ≤ 1) (hlen : st.nameParts.length > 0)
    (hl : findLastname st = some (last, ⟨first :: middle, []⟩)) :
    nameStages nick suffix title st =
      some (⟨title, first, join middle [' '], last, nick, suffix⟩, State.initial) := by
  rw [nameStages_fixed nick suffix title st hp hc hk, if_pos hlen, hl]
  cases middle with
  | nil => simp [findFirstname, join_nil, State.initial]
  | cons m rest => simp [findFirstname, findMiddlename, State.initial]

theorem parseStages_unlisted (nick : Str) (st : State)
    (hs : ∀ t ∈ st.nameParts, ¬ listed suffixList t)
    (ht : ∀ t ∈ st.nameParts, ¬ listed titleList t) :
    parseStages nick st = nameStages nick [] [] st := by
  have e1 : findSuffixes = findParts suffixList := rfl
  have e2 : findTitles = findParts titleList := rfl
  simp only [parseStages, e1, e2, listStage_unlisted suffixList st hs, Option.some_bind,
    listStage_unlisted titleList st ht]

/-! ## The properties -/

/-- C4: an input without a nickname span that `splitName` cuts into exactly one
token `t` gives `Last = t` and leaves Title, First, Middle, Nick and Suffix
empty, whatever `t` is; the empty input gives six empty fields. -/
theorem single_token_is_last (s t : Str) (hn : (findNicknames s).1 = [])
    (ht : (splitName State.initial (findNicknames s).2).map State.nameParts = some [t]) :
    ParseFullname State.initial s = some (⟨[], [], [], t, [], []⟩, State.initial) ∧
    ParseFullname State.initial [] = some (⟨[], [], [], [], [], []⟩, State.initial) := by
  refine ⟨?_, by decide!⟩
  obtain ⟨st1, h1, hb⟩ := splitName_balanced State.initial (findNicknames s).2 rfl
  rw [h1] at ht
  simp only [Option.map_some', Option.some.injEq] at ht
  obtain ⟨parts, commas⟩ := st1
  simp only at ht
  subst ht
  have hlen : commas.length = 1 := by
    have : ([t] : List Str).length = commas.length := hb
    simpa using this.symm
  obtain ⟨c, rfl⟩ := List.length_eq_one.mp hlen
  simp only [ParseFullname, h1, hn, join_nil]
  cases c <;>
    simp [parseStages, listStage, nameStages, findLastname, lastCommaIndex, getAt, spliceOut,
      State.initial]

theorem single_token_is_last_witness :
    ParseFullname State.initial "Dr.".toList =
      some (⟨[], [], [], "Dr.".toList, [], []⟩, State.initial) ∧
    ParseFullname State.initial [] = some (⟨[], [], [], [], [], []⟩, State.initial) :=
  single_token_is_last "Dr.".toList "Dr.".toList (by decide!) (by decide!)

/-- C5: two or more plain tokens separated by single spaces, none of them
matching the suffix or title list or equal to a prefix or conjunction entry,
give First = the first token, Last = the last token, Middle = the tokens in
between joined by single spaces, and Title, Nick and Suffix empty. -/
theorem first_middle_last (first last : Str) (middle : List Str)
    (hplain : ∀ t ∈ first :: middle ++ [last], plain t)
    (hlist : ∀ t ∈ first :: middle ++ [last],
      ¬ listed suffixList t ∧ ¬ listed titleList t)
    (hjoin : ∀ t ∈ first :: middle ++ [last], t ∉ prefixList ∧ t ∉ conjunctionList) :
    ParseFullname State.initial (join (first :: middle ++ [last]) [' ']) =
      some (⟨[], first, join middle [' '], last, [], []⟩, State.initial) := by
  have hr : join (first :: middle ++ [last]) [' '] =
      render ((first :: middle ++ [last]).map (fun t => (t, false))) := by
    simp [render, word, List.map_map, Function.comp_def]
  rw [hr, ParseFullname_render _ (by simp) (by simpa using hplain)]
  simp only [List.map_map, Function.comp_def, List.map_id', List.map_const']
  rw [parseStages_unlisted _ _ (fun t h => (hlist t h).1) (fun t h => (hlist t h).2)]
  apply nameStages_eval
  · exact fun t h => (hjoin t h).1
  · exact fun t h => (hjoin t h).2
  · simp [count_true_replicate_false]
  · simp
  · exact findLastname_no_comma (first :: middle) last _

theorem first_middle_last_witness :
    ParseFullname State.initial "Juan Q. R. Xavier".toList =
      some (⟨[], "Juan".toList, "Q. R.".toList, "Xavier".toList, [], []⟩, State.initial) :=
  first_middle_last "Juan".toList "Xavier".toList ["Q.".toList, "R.".toList]
    (by decide!) (by decide!) (by decide!)

/-- No entry of `suffixList` is repeated. -/
theorem suffixList_count : ∀ x ∈ suffixList, suffixList.count x = 1 := by decide!

theorem firstIndex_none (x : Str) (l : List Str) (h : x ∉ l) : firstIndex x l = none := by
  induction l with
  | nil => rfl
  | cons y rest ih =>
    have hne : x ≠ y := fun he => h (he ▸ List.mem_cons_self _ _)
    simp [firstIndex, hne, ih (fun hm => h (List.mem_cons_of_mem _ hm))]

theorem clearPart_absent (st : State) (p : Str) (h : p ∉ st.nameParts) :
    clearPart st p = some st := by
  simp [clearPart, firstIndex_none p st.nameParts h]

/-- What the code does in `L, F M s, X` when `findParts` does find `s` in the
suffix list, which leaves out the entries that end in a period: with `L`, `F`,
`M`, `X` plain tokens that match no list, the item after the comma is reported
as an extra suffix, Last = `L`, First = `F`, Middle = `M` and Suffix = `s, X`.
The full test of `parser_test.go` evaluates as the test expects. -/
theorem extra_suffix_after_comma (L F M s X : Str)
    (hplain : ∀ t ∈ [L, F, M, s, X], plain t)
    (hs : listed suffixList s)
    (hlist : ∀ t ∈ [L, F, M, X], ¬ listed suffixList t ∧ ¬ listed titleList t ∧
      t ∉ prefixList ∧ t ∉ conjunctionList) :
    ParseFullname State.initial
        (L ++ [',', ' '] ++ F ++ [' '] ++ M ++ [' '] ++ s ++ [',', ' '] ++ X) =
      some (⟨[], F, M, L, [], s ++ [',', ' '] ++ X⟩, State.initial) ∧
    ParseFullname State.initial
        "de la Vega, Dr. Juan et Glova (Doc Vega) Q. Xavier III, Jr., Genius".toList =
      some (⟨"Dr.".toList, "Juan et Glova".toList, "Q. Xavier".toList, "de la Vega".toList,
        "Doc Vega".toList, "III, Jr., Genius".toList⟩, State.initial) := by
  refine ⟨?_, by decide!⟩
  have hr : L ++ [',', ' '] ++ F ++ [' '] ++ M ++ [' '] ++ s ++ [',', ' '] ++ X =
      render [(L, true), (F, false), (M, false), (s, true), (X, false)] := by
    simp [render, word, join_cons_cons, join_singleton]
  rw [hr, ParseFullname_render _ (by simp) (by simpa using hplain)]
  simp only [List.map_cons, List.map_nil]
  have hL := hlist L (by simp)
  have hF := hlist F (by simp)
  have hM := hlist M (by simp)
  have hX := hlist X (by simp)
  have hLs : L ≠ s := fun h => hL.1 (h ▸ hs)
  have hFs : F ≠ s := fun h => hF.1 (h ▸ hs)
  have hMs : M ≠ s := fun h => hM.1 (h ▸ hs)
  have hne : ∀ t, plain t → t ≠ [] := fun t h => h.1
  have hcount : ∀ t, t ≠ [] → ¬ listed suffixList t →
      suffixList.count (partToCheck t) = 0 := fun t h1 h2 =>
    List.count_eq_zero.mpr (fun hm => h2 ⟨h1, hm⟩)
  have hc1 : suffixList.count (partToCheck s) = 1 :=
    suffixList_count _ hs.2
  have hscan : scanParts suffixList [L, F, M, s, X] = [s] := by
    simp [scanParts, hc1, hne L (hplain L (by simp)), hne F (hplain F (by simp)),
      hne M (hplain M (by simp)), hne X (hplain X (by simp)), hs.1,
      hcount L (hne L (hplain L (by simp))) hL.1, hcount F (hne F (hplain F (by simp))) hF.1,
      hcount M (hne M (hplain M (by simp))) hM.1, hcount X (hne X (hplain X (by simp))) hX.1]
  have hsuffix : listStage findSuffixes ⟨[L, F, M, s, X], [true, false, false, true, false]⟩ =
      some (s, ⟨[L, F, M, X], [true, false, false, true]⟩) := by
    have e1 : findSuffixes = findParts suffixList := rfl
    simp [listStage, e1, findParts, hscan, forEachM, clearPart, firstIndex, hLs.symm, hFs.symm,
      hMs.symm, spliceOut, join_singleton]
  have htitle : listStage findTitles ⟨[L, F, M, X], [true, false, false, true]⟩ =
      some ([], ⟨[L, F, M, X], [true, false, false, true]⟩) :=
    listStage_unlisted titleList _ (fun t h => (hlist t h).2.1)
  have hextra : findExtraSuffixes ⟨[L, F, M, X], [true, false, false, true]⟩ =
      some ([X], ⟨[L, F, M], [true, false, false]⟩) := by
    simp [findExtraSuffixes, downFrom, extraSuffixAt, spliceOut]
  simp only [parseStages, hsuffix, htitle, Option.some_bind, nameStages]
  rw [joinPrefixes_fixed _ (fun t h => (hlist t h).2.2.1)]
  simp only [ite_self, Option.some_bind]
  rw [joinConjunctions_fixed _ (fun t h => (hlist t h).2.2.2)]
  simp only [ite_self, Option.some_bind, hextra, Option.map_some']
  have hlast := findLastname_first_comma L [F, M] 2
  simp only [List.replicate] at hlast
  simp [hlast, findFirstname, findMiddlename, addExtraSuffixes, hs.1, join_singleton,
    State.initial]

theorem extra_suffix_after_comma_witness :
    ParseFullname State.initial "Vega, Juan Xavier Jr., Genius".toList =
      some (⟨[], "Juan".toList, "Xavier".toList, "Vega".toList, [],
        "Jr., Genius".toList⟩, State.initial) :=
  (extra_suffix_after_comma "Vega".toList "Juan".toList "Xavier".toList "Jr.".toList
    "Genius".toList (by decide!) (by decide!) (by decide!)).1

/-- C9 fails on the code: `ph.d.` is an entry of `suffixList` and `Vega`,
`Juan`, `Xavier`, `Genius` are plain tokens that match no list, but `findParts`
strips the trailing period of the token before it compares and does not find
`ph.d.`.  Its comma marker then makes `ph.d.` the extra suffix, and `Genius`
stays in Middle. -/
theorem dotted_suffix_before_extra_suffix :
    "ph.d.".toList ∈ suffixList ∧
    ¬ listed suffixList "ph.d.".toList ∧
    (∀ t ∈ ["Vega".toList, "Juan".toList, "Xavier".toList, "Genius".toList],
      plain t ∧ ¬ listed suffixList t ∧ ¬ listed titleList t ∧
        t ∉ prefixList ∧ t ∉ conjunctionList) ∧
    ParseFullname State.initial "Vega, Juan Xavier ph.d., Genius".toList =
      some (⟨[], "Juan".toList, "Xavier Genius".toList, "Vega".toList, [],
        "ph.d.".toList⟩, State.initial) := by decide!

theorem splitOnSpace_ne_nil (s : Str) : splitOnSpace s ≠ [] := by
  induction s with
  | nil => simp [splitOnSpace]
  | cons c rest ih =>
    unfold splitOnSpace
    split
    · simp
    · split <;> simp

theorem splitName_nameParts_ne_nil (st st1 : State) (s : Str) (h : splitName st s = some st1)
    (hc : st.nameCommas = []) : st1.nameParts ≠ [] ∧ Balanced st1 := by
  obtain ⟨parts, commas1, h1, h2, h3⟩ :=
    splitLoop_total (splitOnSpace (trimSpace (collapseSpaces false s))) 0 st.nameCommas
      (Nat.zero_le _)
  simp only [splitName, h1, Option.some.injEq] at h
  subst h
  refine ⟨?_, ?_⟩
  · intro hnil
    simp only at hnil
    rw [hnil] at h2
    exact splitOnSpace_ne_nil _ (List.length_eq_zero.mp h2.symm)
  · simp only [Balanced, h2, h3, hc]
    simp

/-- The title field is only written into the result: the other stages of
`nameStages` do not read it. -/
theorem nameStages_title (nick suffix title : Str) (st : State) (r : ParsedName) (st1 : State)
    (h : nameStages nick suffix [] st = some (r, st1)) :
    nameStages nick suffix title st =
      some (⟨title, r.First, r.Middle, r.Last, r.Nick, r.Suffix⟩, st1) := by
  unfold nameStages at h ⊢
  cases h1 : (if st.nameParts.length > 1 then joinPrefixes st else some st) with
  | none => simp [h1] at h
  | some s1 =>
    cases h2 : (if s1.nameParts.length > 1 then joinConjunctions s1 else some s1) with
    | none => simp [h1, h2] at h
    | some s2 =>
      cases h3 : (if s2.nameParts.length > 1 then
          (findExtraSuffixes s2).map (fun r => (addExtraSuffixes suffix r.1, r.2))
          else some (suffix, s2)) with
      | none => simp [h1, h2, h3] at h
      | some s3 =>
        cases h4 : (if s3.2.nameParts.length > 0 then findLastname s3.2
            else some ([], s3.2)) with
        | none => simp [h1, h2, h3, h4] at h
        | some s4 =>
          cases h5 : (if s4.2.nameParts.length > 0 then findFirstname s4.2
              else some ([], s4.2)) with
          | none => simp [h1, h2, h3, h4, h5] at h
          | some s5 =>
            simp only [h1, h2, h3, h4, h5, Option.some_bind, Option.some.injEq,
              Prod.mk.injEq] at h ⊢
            obtain ⟨hr, hst⟩ := h
            subst hr
            exact ⟨rfl, hst⟩

theorem join_replicate_succ (T : Str) (k : Nat) (sep : Str) :
    ∃ tail, join (List.replicate (k + 1) T) sep = T ++ tail := by
  cases k with
  | zero => exact ⟨[], by simp [join_singleton]⟩
  | succ k =>
    exact ⟨sep ++ join (List.replicate (k + 1) T) sep, by
      simp only [List.replicate_succ]
      rw [join_cons_cons, List.append_assoc]⟩

/-- C8, as amended: when `T ++ " " ++ name` carries the nicknames of `name` and is
split into `T`, without comma marker, followed by the tokens and markers of
`name`, for a token `T` that matches the title list and not the suffix list and
a `name` whose tokens match neither list, both parses succeed and agree on
First, Middle, Last, Nick and Suffix, and the Title of the longer input is not
empty and starts with `T` as written. -/
theorem title_changes_only_title (T name : Str) (toks : List Str) (commas : List Bool)
    (hT : listed titleList T) (hTs : ¬ listed suffixList T)
    (hnick : (findNicknames (T ++ ' ' :: name)).1 = (findNicknames name).1)
    (hname : splitName State.initial (findNicknames name).2 = some ⟨toks, commas⟩)
    (hsplit : splitName State.initial (findNicknames (T ++ ' ' :: name)).2 =
      some ⟨T :: toks, false :: commas⟩)
    (hlist : ∀ t ∈ toks, ¬ listed suffixList t ∧ ¬ listed titleList t) :
    ∃ r r1, ParseFullname State.initial name = some (r, State.initial) ∧
      ParseFullname State.initial (T ++ ' ' :: name) = some (r1, State.initial) ∧
      r1.First = r.First ∧ r1.Middle = r.Middle ∧ r1.Last = r.Last ∧ r1.Nick = r.Nick ∧
      r1.Suffix = r.Suffix ∧ r1.Title ≠ [] ∧ T <+: r1.Title := by
  obtain ⟨hne, hb⟩ := splitName_nameParts_ne_nil _ _ _ hname rfl
  simp only at hne
  obtain ⟨r, hr⟩ := nameStages_total (join (findNicknames name).1 [',']) [] [] ⟨toks, commas⟩ hb
  have hk : 0 < titleList.count (partToCheck T) := List.count_pos_iff.mpr hT.2
  obtain ⟨k, hk1⟩ : ∃ k, titleList.count (partToCheck T) = k + 1 :=
    ⟨titleList.count (partToCheck T) - 1, by omega⟩
  obtain ⟨tail, htail⟩ := join_replicate_succ T k [',', ' ']
  have hTtoks : T ∉ toks := fun hm => (hlist T hm).2 hT
  have e1 : findSuffixes = findParts suffixList := rfl
  have e2 : findTitles = findParts titleList := rfl
  have hsfx : listStage findSuffixes ⟨T :: toks, false :: commas⟩ =
      some ([], ⟨T :: toks, false :: commas⟩) := by
    rw [e1]
    apply listStage_unlisted
    intro t ht
    rcases List.mem_cons.mp ht with h1 | h1
    · rw [h1]; exact hTs
    · exact (hlist t h1).1
  have hscan : scanParts titleList (T :: toks) = List.replicate (k + 1) T := by
    rw [scanParts, if_neg hT.1, hk1, scanParts_unlisted titleList toks (fun t h => (hlist t h).2)]
    simp
  have hlen : (T :: toks).length > 1 := by
    cases toks with
    | nil => exact absurd rfl hne
    | cons a rest => simp
  have hclear : forEachM clearPart ⟨T :: toks, false :: commas⟩ (List.replicate (k + 1) T) =
      some ⟨toks, commas⟩ := by
    have hfirst : clearPart ⟨T :: toks, false :: commas⟩ T = some ⟨toks, commas⟩ := by
      simp [clearPart, firstIndex, spliceOut]
    simp only [List.replicate_succ, forEachM, hfirst]
    apply forEachM_fixed
    intro a ha
    rw [List.eq_of_mem_replicate ha]
    exact clearPart_absent _ _ hTtoks
  have httl : listStage findTitles ⟨T :: toks, false :: commas⟩ =
      some (T ++ tail, ⟨toks, commas⟩) := by
    rw [e2]
    unfold listStage
    rw [if_pos hlen]
    simp only [findParts, hscan, hclear, Option.map_some', htail]
  refine ⟨r, ⟨T ++ tail, r.First, r.Middle, r.Last, r.Nick, r.Suffix⟩, ?_, ?_, rfl, rfl, rfl,
    rfl, rfl, ?_, ?_⟩
  · simp only [ParseFullname, hname]
    rw [parseStages_unlisted _ _ (fun t h => (hlist t h).1) (fun t h => (hlist t h).2)]
    exact hr
  · simp only [ParseFullname, hsplit, parseStages, hsfx, httl, Option.some_bind, hnick]
    exact nameStages_title _ _ _ _ _ _ hr
  · simp [hT.1]
  · exact List.prefix_append _ _

theorem title_changes_only_title_witness :
    ∃ r r1, ParseFullname State.initial "Juan Xavier (Doc Vega)".toList =
        some (r, State.initial) ∧
      ParseFullname State.initial ("Dr.".toList ++ ' ' :: "Juan Xavier (Doc Vega)".toList) =
        some (r1, State.initial) ∧
      r1.First = r.First ∧ r1.Middle = r.Middle ∧ r1.Last = r.Last ∧ r1.Nick = r.Nick ∧
      r1.Suffix = r.Suffix ∧ r1.Title ≠ [] ∧ "Dr.".toList <+: r1.Title :=
  title_changes_only_title "Dr.".toList "Juan Xavier (Doc Vega)".toList
    ["Juan".toList, "Xavier".toList] [false, false]
    (by decide!) (by decide!) (by decide!) (by decide!) (by decide!) (by decide!)

/-- C8 fails as stated: the name made of one space is not empty and its only
token, the empty one, matches no list, yet `"Dr" ++ " " ++ " "` is trimmed to
the single token `Dr`, which the guard `len(nameParts) > 1` keeps as the last
name, while the name alone has an empty last name. -/
theorem title_before_blank_name :
    ParseFullname State.initial " ".toList =
      some (⟨[], [], [], [], [], []⟩, State.initial) ∧
    ParseFullname State.initial ("Dr".toList ++ ' ' :: " ".toList) =
      some (⟨[], [], [], "Dr".toList, [], []⟩, State.initial) ∧
    listed titleList "Dr".toList ∧ ¬ listed suffixList "Dr".toList ∧
    (splitName State.initial (findNicknames " ".toList).2).map State.nameParts = some [[]] ∧
    ¬ listed suffixList [] ∧ ¬ listed titleList [] := by decide!

theorem ParseFullname_congr (st : State) (fullname : Str) (h : st.nameCommas = []) :
    ParseFullname st fullname = ParseFullname State.initial fullname := by
  simp only [ParseFullname, splitName_congr st State.initial _ (h.trans rfl)]

/-- The model does carry state from call to call: markers left in `nameCommas`
would change the next result.  No sequence of calls leaves such a state. -/
theorem stale_markers_change_result :
    ParseFullname ⟨[], [true]⟩ "Juan Xavier".toList =
      some (⟨[], "Xavier".toList, [], "Juan".toList, [], []⟩, State.initial) ∧
    ParseFullname State.initial "Juan Xavier".toList =
      some (⟨[], "Juan".toList, [], "Xavier".toList, [], []⟩, State.initial) := by decide!

/-- C2: from every state that a sequence of `ParseFullname` calls can leave,
`ParseFullname` returns on every input the result it returns from the initial
state, and a second call on the same input returns that result again. -/
theorem result_depends_only_on_argument (st : State) (fullname : Str) (h : Reachable st) :
    ∃ r st1, ParseFullname st fullname = some (r, st1) ∧
      (∃ st2, ParseFullname State.initial fullname = some (r, st2)) ∧
      (∃ st3, ParseFullname st1 fullname = some (r, st3)) := by
  have hc := Reachable.nameCommas_nil st h
  obtain ⟨r, hr⟩ := ParseFullname_total State.initial fullname rfl
  refine ⟨r, State.initial, ?_, ⟨_, hr⟩, ⟨_, hr⟩⟩
  rw [ParseFullname_congr st fullname hc, hr]

theorem result_depends_only_on_argument_witness :
    ∃ r st1, ParseFullname State.initial "Xavier, Juan".toList = some (r, st1) ∧
      (∃ st2, ParseFullname State.initial "Xavier, Juan".toList = some (r, st2)) ∧
      (∃ st3, ParseFullname st1 "Xavier, Juan".toList = some (r, st3)) :=
  result_depends_only_on_argument State.initial "Xavier, Juan".toList
    (Reachable.call State.initial State.initial "Jr., Sr.".toList
      ⟨[], [], [], [], [], "Jr., Sr.".toList⟩ Reachable.initial (by decide!))

/-- C3: from every state that a sequence of `ParseFullname` calls can leave,
`ParseFullname` returns a `ParsedName` on every input: no index and no slice
bound of any stage is out of range, and the loops end within their fuel. -/
theorem ParseFullname_returns (st : State) (fullname : Str) (h : Reachable st) :
    ∃ r st1, ParseFullname st fullname = some (r, st1) := by
  obtain ⟨r, hr⟩ := ParseFullname_total st fullname (Reachable.nameCommas_nil st h)
  exact ⟨r, State.initial, hr⟩

theorem ParseFullname_returns_witness :
    ∃ r st1, ParseFullname State.initial ", , and".toList = some (r, st1) :=
  ParseFullname_returns State.initial ", , and".toList
    (Reachable.call State.initial State.initial "van der, y ,".toList
      ⟨[], "van der y".toList, [], [], [], []⟩ Reachable.initial (by decide!))

/-- C1 fails on the code: `titleList` holds `miss` twice (as it does `frau`,
`herr`, `hr` and `monsieur`), the first loop of `findParts` appends a part once
per equal entry, and the one token `Miss` is reported twice in Title. -/
theorem title_reported_twice :
    ParseFullname State.initial "Miss Jane Doe".toList =
      some (⟨"Miss, Miss".toList, "Jane".toList, [], "Doe".toList, [], []⟩, State.initial) ∧
    titleList.count "miss".toList = 2 := by decide!

/-- C7 fails on the code: `ph.d.` is an entry of `suffixList`, but `findParts`
strips the trailing period of the token before it compares, so the token as
written is not found and ends up as the last name. -/
theorem dotted_suffix_not_found :
    "ph.d.".toList ∈ suffixList ∧
    partToCheck "Ph.D.".toList = "ph.d".toList ∧
    ParseFullname State.initial "John Smith Ph.D.".toList =
      some (⟨[], "John".toList, "Smith".toList, "Ph.D.".toList, [], []⟩, State.initial) := by
  decide!

/-- C10 fails on the code: the second span is ` (El (Doc)` with inner text
`El (Doc`; deleting the text of the first span, ` (Doc)`, everywhere also cuts
it out of the second span, whose own text is then no longer found, and `(El`
stays in Middle. -/
theorem nickname_text_left_in_middle :
    findAllSubmatch 0 "Juan (Doc) Xavier (El (Doc) Vega)".toList =
      [(" (Doc)".toList, "Doc".toList), (" (El (Doc)".toList, "El (Doc".toList)] ∧
    (findNicknames "Juan (Doc) Xavier (El (Doc) Vega)".toList).2 =
      "Juan Xavier (El Vega)".toList ∧
    ParseFullname State.initial "Juan (Doc) Xavier (El (Doc) Vega)".toList =
      some (⟨[], "Juan".toList, "Xavier (El".toList, "Vega)".toList,
        "Doc,El (Doc".toList, []⟩, State.initial) := by decide!

/-! ## The stages one by one -/

/-- C11: `splitName`, started with an empty marker sequence, produces token and
marker sequences of equal length, and `findParts` (for any list),
`joinPrefixes`, `joinConjunctions` and `findExtraSuffixes`, applied to a state
with equal lengths, return a state with equal lengths. -/
theorem stages_keep_lengths (st : State) (list : List Str) (parts0 : List Str)
    (fullname : Str) (h : Balanced st) :
    (∃ st1, splitName ⟨parts0, []⟩ fullname = some st1 ∧ Balanced st1) ∧
    (∃ r, findParts list st = some r ∧ Balanced r.2) ∧
    (∃ st1, joinPrefixes st = some st1 ∧ Balanced st1) ∧
    (∃ st1, joinConjunctions st = some st1 ∧ Balanced st1) ∧
    (∃ r, findExtraSuffixes st = some r ∧ Balanced r.2) := by
  refine ⟨splitName_balanced ⟨parts0, []⟩ fullname rfl, ?_, joinPrefixes_balanced st h,
    joinConjunctions_balanced st h, findExtraSuffixes_balanced st h⟩
  obtain ⟨st1, h1, hb⟩ := findParts_balanced list st h
  exact ⟨_, h1, hb⟩

theorem stages_keep_lengths_witness :
    (∃ st1, splitName ⟨["old".toList], []⟩ "de la Vega, Juan".toList = some st1 ∧
      Balanced st1) ∧
    (∃ r, findParts titleList
        ⟨["Dr.".toList, "van".toList, "A".toList, "and".toList, "B".toList, "X".toList],
          [true, false, false, false, true, true]⟩ = some r ∧ Balanced r.2) ∧
    (∃ st1, joinPrefixes
        ⟨["Dr.".toList, "van".toList, "A".toList, "and".toList, "B".toList, "X".toList],
          [true, false, false, false, true, true]⟩ = some st1 ∧ Balanced st1) ∧
    (∃ st1, joinConjunctions
        ⟨["Dr.".toList, "van".toList, "A".toList, "and".toList, "B".toList, "X".toList],
          [true, false, false, false, true, true]⟩ = some st1 ∧ Balanced st1) ∧
    (∃ r, findExtraSuffixes
        ⟨["Dr.".toList, "van".toList, "A".toList, "and".toList, "B".toList, "X".toList],
          [true, false, false, false, true, true]⟩ = some r ∧ Balanced r.2) :=
  stages_keep_lengths
    ⟨["Dr.".toList, "van".toList, "A".toList, "and".toList, "B".toList, "X".toList],
      [true, false, false, false, true, true]⟩
    titleList ["old".toList] "de la Vega, Juan".toList rfl

/-- With a list that holds no entry twice, the first loop of `findParts`
returns the matching parts, each once, in their order. -/
theorem scanParts_eq_filter (list : List Str) (hd : ∀ x, list.count x ≤ 1)
    (parts : List Str) :
    scanParts list parts = parts.filter (fun t => decide (listed list t)) := by
  induction parts with
  | nil => rfl
  | cons t rest ih =>
    unfold scanParts
    by_cases hne : t = []
    · rw [if_pos hne, ih, List.filter_cons_of_neg (by simp [listed, hne])]
    · rw [if_neg hne, ih]
      by_cases hm : partToCheck t ∈ list
      · have h1 : list.count (partToCheck t) = 1 := by
          have := hd (partToCheck t)
          have := List.count_pos_iff.mpr hm
          omega
        rw [h1, List.filter_cons_of_pos (by simp [listed, hne, hm])]
        rfl
      · rw [List.count_eq_zero.mpr hm, List.filter_cons_of_neg (by simp [listed, hm])]
        rfl

/-- C12 fails on the code: `findParts` with `titleList`, which holds `miss`
twice, returns the one token `Miss` twice, while it removes it once. -/
theorem findParts_reports_twice :
    findParts titleList ⟨["Miss".toList, "Jane".toList, "Doe".toList], [false, false, false]⟩ =
      some (["Miss".toList, "Miss".toList],
        ⟨["Jane".toList, "Doe".toList], [false, false]⟩) := by decide!

/-! ## Prefix and conjunction chains -/

theorem joinPrefixAt_skip (i : Nat) (st : State) (pref part : Str)
    (h : st.nameParts.get? i = some part) (hne : pref ≠ part) :
    joinPrefixAt i st pref = some st := by
  unfold joinPrefixAt
  rw [h]
  simp only [if_neg hne]

theorem get?_append_length {α : Type} (A B : List α) (x : α) :
    (A ++ x :: B).get? A.length = some x := by
  simp only [List.get?_eq_getElem?]
  rw [List.getElem?_append_right (Nat.le_refl _), Nat.sub_self]
  simp

theorem get?_append_length_add {α : Type} (A B : List α) (n : Nat) :
    (A ++ B).get? (A.length + n) = B.get? n := by
  simp only [List.get?_eq_getElem?]
  rw [List.getElem?_append_right (Nat.le_add_right _ _), Nat.add_sub_cancel_left]

theorem set_append_length {α : Type} (A B : List α) (x y : α) :
    (A ++ x :: B).set A.length y = A ++ y :: B := by
  induction A with
  | nil => rfl
  | cons a rest ih => simp [ih]

/-- Cutting the middle out of a list made of three pieces. -/
theorem spliceOut_append {α : Type} (A M B : List α) :
    spliceOut (A ++ (M ++ B)) A.length (A.length + M.length) = some (A ++ B) := by
  rw [spliceOut_eq_some _ _ _ (Nat.le_add_right _ _) (by simp), List.take_left,
    List.drop_append, List.drop_left]

theorem joinPrefixAt_merge (A B : List Str) (p q : Str) (cA cB : List Bool) (cp cq : Bool)
    (hA : cA.length = A.length) :
    joinPrefixAt A.length ⟨A ++ p :: q :: B, cA ++ cp :: cq :: cB⟩ p =
      some ⟨A ++ (p ++ ' ' :: q) :: B, cA ++ cq :: cB⟩ := by
  unfold joinPrefixAt
  have h1 := get?_append_length A (q :: B) p
  have h2 : (A ++ p :: q :: B).get? (A.length + 1) = some q :=
    get?_append_length_add A (p :: q :: B) 1
  simp only [h1, h2, if_true]
  have h3 : spliceOut ((A ++ p :: q :: B).set A.length (p ++ ' ' :: q)) (A.length + 1)
      (A.length + 2) = some (A ++ (p ++ ' ' :: q) :: B) := by
    rw [set_append_length]
    have := spliceOut_append (A ++ [p ++ ' ' :: q]) [q] B
    simpa using this
  have h4 : spliceOut (cA ++ cp :: cq :: cB) A.length (A.length + 1) =
      some (cA ++ cq :: cB) := by
    have := spliceOut_append cA [cp] (cq :: cB)
    simpa [hA] using this
  simp only [h3, h4]

/-- The inner loop of `joinPrefixes` over (a part of) the prefix list, at a
part that is itself an entry: it merges once, at the first equal entry. -/
theorem forEachM_joinPrefixAt (A B : List Str) (p q : Str) (cA cB : List Bool) (cp cq : Bool)
    (hA : cA.length = A.length) (l : List Str) (hl : ∀ a ∈ l, a ∈ prefixList) :
    forEachM (joinPrefixAt A.length) ⟨A ++ p :: q :: B, cA ++ cp :: cq :: cB⟩ l =
      some (if p ∈ l then ⟨A ++ (p ++ ' ' :: q) :: B, cA ++ cq :: cB⟩
        else ⟨A ++ p :: q :: B, cA ++ cp :: cq :: cB⟩) := by
  induction l with
  | nil => simp [forEachM]
  | cons a rest ih =>
    by_cases ha : a = p
    · subst ha
      simp only [forEachM, joinPrefixAt_merge A B a q cA cB cp cq hA, List.mem_cons, true_or,
        if_true]
      apply forEachM_fixed
      intro b hb
      apply joinPrefixAt_skip _ _ _ (a ++ ' ' :: q) (get?_append_length A B _)
      intro he
      exact prefixList_no_space b (hl b (List.mem_cons_of_mem _ hb)) (by rw [he]; simp)
    · have hskip := joinPrefixAt_skip A.length ⟨A ++ p :: q :: B, cA ++ cp :: cq :: cB⟩ a p
        (get?_append_length A _ p) ha
      simp only [forEachM, hskip]
      rw [ih (fun b hb => hl b (List.mem_cons_of_mem _ hb))]
      have : (p ∈ a :: rest) ↔ p ∈ rest := by
        simp only [List.mem_cons]
        constructor
        · rintro (h | h)
          · exact absurd h.symm ha
          · exact h
        · exact Or.inr
      simp only [this]

theorem join_append_merge (l : List Str) (a b : Str) :
    join (l ++ [a ++ ' ' :: b]) [' '] = join (l ++ [a, b]) [' '] := by
  induction l with
  | nil => simp [join_singleton, join_cons_cons]
  | cons x rest ih =>
    cases rest with
    | nil =>
      simp only [List.cons_append, List.nil_append] at ih ⊢
      rw [join_cons_cons, join_cons_cons, ih]
    | cons y rest2 =>
      simp only [List.cons_append] at ih ⊢
      rw [join_cons_cons, join_cons_cons, ih]

/-- The outer loop of `joinPrefixes` over a run of prefix entries in front of
the last part: the run and the last part end up as one part. -/
theorem downFrom_prefix_chain (pre : List Str) (cpre : List Bool)
    (hl1 : cpre.length = pre.length) (ps : List Str) :
    ∀ (m : Str) (cps : List Bool) (cm : Bool), (∀ p ∈ ps, p ∈ prefixList) →
      cps.length = ps.length →
      downFrom (fun i s => forEachM (joinPrefixAt i) s prefixList) (pre.length + ps.length)
          ⟨pre ++ ps ++ [m], cpre ++ cps ++ [cm]⟩ =
        downFrom (fun i s => forEachM (joinPrefixAt i) s prefixList) pre.length
          ⟨pre ++ [join (ps ++ [m]) [' ']], cpre ++ [cm]⟩ := by
  induction ps using List.reverseRecOn with
  | nil =>
    intro m cps cm _ hlen
    have : cps = [] := List.length_eq_zero.mp hlen
    subst this
    simp [join_singleton]
  | append_singleton ps1 p ih =>
    intro m cps cm hin hlen
    have hcps : cps ≠ [] := by
      intro h; subst h; simp at hlen
    obtain ⟨cps1, cp, rfl⟩ : ∃ cps1 cp, cps = cps1 ++ [cp] :=
      ⟨cps.dropLast, cps.getLast hcps, (List.dropLast_append_getLast hcps).symm⟩
    have hlen1 : cps1.length = ps1.length := by simpa using hlen
    have hp : p ∈ prefixList := hin p (by simp)
    have hstep := forEachM_joinPrefixAt (pre ++ ps1) [] p m (cpre ++ cps1) [] cp cm
      (by simp [hl1, hlen1]) prefixList (fun a ha => ha)
    rw [if_pos hp] at hstep
    have e1 : pre.length + (ps1 ++ [p]).length = (pre ++ ps1).length + 1 := by
      simp; omega
    have e2 : pre ++ (ps1 ++ [p]) ++ [m] = (pre ++ ps1) ++ [p, m] := by simp
    have e3 : cpre ++ (cps1 ++ [cp]) ++ [cm] = (cpre ++ cps1) ++ [cp, cm] := by simp
    rw [e1, e2, e3, downFrom]
    simp only [hstep]
    have := ih (p ++ ' ' :: m) cps1 cm (fun x hx => hin x (by simp [hx])) hlen1
    rw [List.length_append]
    simp only [List.append_assoc] at this ⊢
    rw [this, join_append_merge]
    simp

/-- C13: a run of one or more prefix-list entries followed by the last part
collapses into one part, the words joined by single spaces; the parts before
the run, none of them a prefix entry, and their markers are unchanged, and the
merged part carries the marker of the last part. -/
theorem prefix_chain (pre ps : List Str) (s : Str) (cpre cps : List Bool) (cs : Bool)
    (hps : ps ≠ []) (hpre : ∀ t ∈ pre, t ∉ prefixList) (hin : ∀ p ∈ ps, p ∈ prefixList)
    (hl1 : cpre.length = pre.length) (hl2 : cps.length = ps.length) :
    joinPrefixes ⟨pre ++ ps ++ [s], cpre ++ cps ++ [cs]⟩ =
      some ⟨pre ++ [join (ps ++ [s]) [' ']], cpre ++ [cs]⟩ := by
  have hpos : 0 < ps.length := List.length_pos.mpr hps
  unfold joinPrefixes
  rw [if_pos (by simp; omega)]
  have e : (State.mk (pre ++ ps ++ [s]) (cpre ++ cps ++ [cs])).nameParts.length - 1 =
      pre.length + ps.length := by simp
  rw [e, downFrom_prefix_chain pre cpre hl1 ps s cps cs hin hl2]
  apply downFrom_fixed
  intro i hi
  apply forEachM_fixed
  intro pref hp
  obtain ⟨part, hpart⟩ := exists_get?_of_lt pre i hi
  apply joinPrefixAt_skip i _ pref part
  · simp only [List.get?_eq_getElem?] at hpart ⊢
    rw [List.getElem?_append_left hi]
    exact hpart
  · intro he
    subst he
    exact hpre pref (List.get?_mem hpart) hp

theorem prefix_chain_witness :
    joinPrefixes ⟨["Juan".toList, "van".toList, "der".toList, "Berg".toList],
        [true, false, true, false]⟩ =
      some ⟨["Juan".toList, "van der Berg".toList], [true, false]⟩ :=
  prefix_chain ["Juan".toList] ["van".toList, "der".toList] "Berg".toList
    [true] [false, true] false (by decide) (by decide!) (by decide!) rfl rfl

theorem alternating_append (Q : List (Str × Str)) (n c : Str) :
    alternating (Q ++ [(n, c)]) = alternating Q ++ [n, c] := by
  induction Q with
  | nil => rfl
  | cons x rest ih => simp [alternating, ih]

theorem alternating_length (Q : List (Str × Str)) : (alternating Q).length = 2 * Q.length := by
  induction Q with
  | nil => rfl
  | cons x rest ih => simp [alternating, ih]; omega

theorem joinConjunctionAt_skip (j : Int) (st : State) (conj mid : Str)
    (h : getAt st.nameParts (j + 1) = some mid) (hne : conj ≠ mid) :
    joinConjunctionAt (j, st) conj = some (j, st) := by
  unfold joinConjunctionAt
  simp only [h, if_neg hne]

theorem joinConjunctionAt_merge (A B : List Str) (n c m : Str) (cA cB : List Bool)
    (cn cc cm : Bool) (hA : cA.length = A.length) :
    joinConjunctionAt ((A.length : Int), ⟨A ++ n :: c :: m :: B, cA ++ cn :: cc :: cm :: cB⟩) c =
      some ((A.length : Int) - 1,
        ⟨A ++ (n ++ ' ' :: (c ++ ' ' :: m)) :: B, cA ++ cm :: cB⟩) := by
  unfold joinConjunctionAt
  have e1 : ((A.length : Int) + 1) = ((A.length + 1 : Nat) : Int) := by push_cast; ring
  have e2 : ((A.length : Int) + 2) = ((A.length + 2 : Nat) : Int) := by push_cast; ring
  have h0 := get?_append_length A (c :: m :: B) n
  have h1 : (A ++ n :: c :: m :: B).get? (A.length + 1) = some c :=
    get?_append_length_add A (n :: c :: m :: B) 1
  have h2 : (A ++ n :: c :: m :: B).get? (A.length + 2) = some m :=
    get?_append_length_add A (n :: c :: m :: B) 2
  simp only [e1, e2, getAt_natCast, Int.toNat_ofNat, h0, h1, h2, if_true]
  have h3 : spliceOut ((A ++ n :: c :: m :: B).set A.length (n ++ ' ' :: (c ++ ' ' :: m)))
      (A.length + 1) (A.length + 3) = some (A ++ (n ++ ' ' :: (c ++ ' ' :: m)) :: B) := by
    rw [set_append_length]
    have := spliceOut_append (A ++ [n ++ ' ' :: (c ++ ' ' :: m)]) [c, m] B
    simpa using this
  have h4 : spliceOut (cA ++ cn :: cc :: cm :: cB) A.length (A.length + 2) =
      some (cA ++ cm :: cB) := by
    have := spliceOut_append cA [cn, cc] (cm :: cB)
    simpa [hA] using this
  simp only [h3, h4]

/-- The inner loop of `joinConjunctions` over (a part of) the conjunction list,
at a window whose middle part is itself an entry: it merges once and steps the
index back. -/
theorem forEachM_joinConjunctionAt (A B : List Str) (n c m : Str) (cA cB : List Bool)
    (cn cc cm : Bool) (hA : cA.length = A.length) (l : List Str)
    (hl : ∀ a ∈ l, a ∈ conjunctionList) :
    forEachM joinConjunctionAt
        ((A.length : Int), ⟨A ++ n :: c :: m :: B, cA ++ cn :: cc :: cm :: cB⟩) l =
      some (if c ∈ l then ((A.length : Int) - 1,
          ⟨A ++ (n ++ ' ' :: (c ++ ' ' :: m)) :: B, cA ++ cm :: cB⟩)
        else ((A.length : Int), ⟨A ++ n :: c :: m :: B, cA ++ cn :: cc :: cm :: cB⟩)) := by
  induction l with
  | nil => simp [forEachM]
  | cons a rest ih =>
    by_cases ha : a = c
    · subst ha
      simp only [forEachM, joinConjunctionAt_merge A B n a m cA cB cn cc cm hA, List.mem_cons,
        true_or, if_true]
      apply forEachM_fixed
      intro b hb
      apply joinConjunctionAt_skip _ _ _ (n ++ ' ' :: (a ++ ' ' :: m))
      · have e : (A.length : Int) - 1 + 1 = ((A.length : Nat) : Int) := by ring
        rw [e, getAt_natCast]
        exact get?_append_length A B _
      · intro he
        exact conjunctionList_no_space b (hl b (List.mem_cons_of_mem _ hb)) (by rw [he]; simp)
    · have hskip := joinConjunctionAt_skip (A.length : Int)
        ⟨A ++ n :: c :: m :: B, cA ++ cn :: cc :: cm :: cB⟩ a c
        (by
          have e : (A.length : Int) + 1 = ((A.length + 1 : Nat) : Int) := by push_cast; ring
          rw [e, getAt_natCast]
          exact get?_append_length_add A (n :: c :: m :: B) 1) ha
      simp only [forEachM, hskip]
      rw [ih (fun b hb => hl b (List.mem_cons_of_mem _ hb))]
      have : (c ∈ a :: rest) ↔ c ∈ rest := by
        simp only [List.mem_cons]
        constructor
        · rintro (h | h)
          · exact absurd h.symm ha
          · exact h
        · exact Or.inr
      simp only [this]

/-- The outer loop of `joinConjunctions` on names alternating with conjunction
entries: window after window, from the right, everything becomes one part. -/
theorem conjunctionLoop_chain (Q : List (Str × Str)) :
    ∀ (m : Str) (cs : List Bool) (cm : Bool) (fuel : Nat),
      (∀ x ∈ Q, x.2 ∈ conjunctionList) → cs.length = 2 * Q.length → Q.length ≤ fuel →
      conjunctionLoop fuel (2 * (Q.length : Int) - 2) ⟨alternating Q ++ [m], cs ++ [cm]⟩ =
        some ⟨[join (alternating Q ++ [m]) [' ']], [cm]⟩ := by
  induction Q using List.reverseRecOn with
  | nil =>
    intro m cs cm fuel _ hlen _
    have : cs = [] := List.length_eq_zero.mp (by simpa using hlen)
    subst this
    unfold conjunctionLoop
    simp [alternating, join_singleton]
  | append_singleton Q1 x ih =>
    intro m cs cm fuel hin hlen hfuel
    obtain ⟨n, c⟩ := x
    have hc : c ∈ conjunctionList := hin (n, c) (by simp)
    have hlen' : cs.length = 2 * Q1.length + 2 := by
      simp only [List.length_append, List.length_singleton] at hlen; omega
    obtain ⟨cs1, cn, cc, rfl, hcs1⟩ : ∃ cs1 cn cc, cs = cs1 ++ [cn, cc] ∧
        cs1.length = 2 * Q1.length := by
      refine ⟨cs.take (2 * Q1.length), cs.get ⟨2 * Q1.length, by omega⟩,
        cs.get ⟨2 * Q1.length + 1, by omega⟩, ?_, by simp; omega⟩
      apply List.ext_get
      · simp; omega
      · intro i h1 h2
        simp only [List.get_eq_getElem]
        by_cases hi : i < 2 * Q1.length
        · rw [List.getElem_append_left (by simp; omega)]
          simp
        · rw [List.getElem_append_right (by simp; omega)]
          have hi2 : i = 2 * Q1.length ∨ i = 2 * Q1.length + 1 := by omega
          rcases hi2 with rfl | rfl <;> simp [hlen']
    obtain ⟨f, rfl⟩ : ∃ f, fuel = f + 1 := ⟨fuel - 1, by
      simp only [List.length_append, List.length_singleton] at hfuel; omega⟩
    have hA : (cs1 : List Bool).length = (alternating Q1).length := by
      rw [alternating_length, hcs1]
    have hstep := forEachM_joinConjunctionAt (alternating Q1) [] n c m cs1 [] cn cc cm hA
      conjunctionList (fun a ha => ha)
    rw [if_pos hc] at hstep
    have e1 : alternating (Q1 ++ [(n, c)]) ++ [m] = alternating Q1 ++ [n, c, m] := by
      rw [alternating_append]; simp
    have e2 : cs1 ++ [cn, cc] ++ [cm] = cs1 ++ [cn, cc, cm] := by simp
    have e3 : 2 * ((Q1 ++ [(n, c)]).length : Int) - 2 = ((alternating Q1).length : Int) := by
      rw [alternating_length]; simp; ring
    rw [e1, e2, e3]
    unfold conjunctionLoop
    rw [if_neg (by omega)]
    simp only [hstep]
    have e4 : ((alternating Q1).length : Int) - 1 - 1 = 2 * (Q1.length : Int) - 2 := by
      rw [alternating_length]; push_cast; ring
    rw [e4, ih (n ++ ' ' :: (c ++ ' ' :: m)) cs1 cm f
      (fun y hy => hin y (by simp [hy])) hcs1
      (by simp only [List.length_append, List.length_singleton] at hfuel; omega)]
    rw [join_append_merge]
    have e5 : alternating Q1 ++ [n, c ++ ' ' :: m] = (alternating Q1 ++ [n]) ++ [c ++ ' ' :: m] := by
      simp
    have e6 : alternating Q1 ++ [n, c, m] = (alternating Q1 ++ [n]) ++ [c, m] := by simp
    rw [e5, join_append_merge, e6]

/-- C14: names alternating with one or more conjunction-list entries,
`n0, c1, n1, .., ck, nk`, are merged by `joinConjunctions` into the single part
`n0 c1 n1 .. ck nk`, the words joined by single spaces, which carries the
marker of `nk`.  The parts are given as the pairs `(n0, c1), .., (n(k-1), ck)`
followed by `nk`. -/
theorem conjunction_chain (pairs : List (Str × Str)) (last : Str) (commas : List Bool)
    (c : Bool) (hk : pairs ≠ []) (hin : ∀ x ∈ pairs, x.2 ∈ conjunctionList)
    (hlen : commas.length = 2 * pairs.length) :
    joinConjunctions ⟨alternating pairs ++ [last], commas ++ [c]⟩ =
      some ⟨[join (alternating pairs ++ [last]) [' ']], [c]⟩ := by
  have hpos : 0 < pairs.length := List.length_pos.mpr hk
  unfold joinConjunctions
  have hl : (State.mk (alternating pairs ++ [last]) (commas ++ [c])).nameParts.length =
      2 * pairs.length + 1 := by simp [alternating_length]
  rw [if_pos (by rw [hl]; omega), hl]
  have e : ((2 * pairs.length + 1 : Nat) : Int) - 3 = 2 * (pairs.length : Int) - 2 := by
    push_cast; ring
  rw [e]
  exact conjunctionLoop_chain pairs last commas c _ hin hlen (by omega)

theorem conjunction_chain_witness :
    joinConjunctions ⟨["A".toList, "and".toList, "B".toList, "y".toList, "C".toList],
        [true, false, true, false, true]⟩ =
      some ⟨["A and B y C".toList], [true]⟩ :=
  conjunction_chain [("A".toList, "and".toList), ("B".toList, "y".toList)] "C".toList
    [true, false, true, false] true (by decide) (by decide!) rfl

/-! ## Extra suffixes -/

theorem markedParts_append (M : List Str) (cM : List Bool) (a : Str) (ca : Bool)
    (h : cM.length = M.length) :
    markedParts (M ++ [a]) (cM ++ [ca]) = markedParts M cM ++ (if ca then [a] else []) := by
  unfold markedParts
  rw [List.zip_append h.symm, List.filter_append, List.map_append]
  cases ca <;> simp

theorem unmarkedParts_append (M : List Str) (cM : List Bool) (a : Str) (ca : Bool)
    (h : cM.length = M.length) :
    unmarkedParts (M ++ [a]) (cM ++ [ca]) = unmarkedParts M cM ++ (if ca then [] else [a]) := by
  unfold unmarkedParts
  rw [List.zip_append h.symm, List.filter_append, List.map_append]
  cases ca <;> simp

theorem extraSuffixAt_shape (A B : List Str) (a : Str) (cA cB : List Bool) (ca : Bool)
    (acc : List Str) (hA : cA.length = A.length) :
    extraSuffixAt A.length (acc, ⟨A ++ a :: B, cA ++ ca :: cB⟩) =
      some (if ca then (acc ++ [a], ⟨A ++ B, cA ++ cB⟩)
        else (acc, ⟨A ++ a :: B, cA ++ ca :: cB⟩)) := by
  unfold extraSuffixAt
  have h1 : (cA ++ ca :: cB).get? A.length = some ca := by
    rw [← hA]; exact get?_append_length cA cB ca
  have h2 := get?_append_length A B a
  have h3 : spliceOut (A ++ a :: B) A.length (A.length + 1) = some (A ++ B) := by
    have := spliceOut_append A [a] B
    simpa using this
  have h4 : spliceOut (cA ++ ca :: cB) A.length (A.length + 1) = some (cA ++ cB) := by
    have := spliceOut_append cA [ca] cB
    simpa [hA] using this
  simp only [h1, h2, h3, h4]
  cases ca <;> simp

/-- The loop of `findExtraSuffixes` over the parts from index 2 on, right to
left: the marked ones are collected, the others stay. -/
theorem downFrom_extraSuffixAt (x0 x1 : Str) (c0 c1 : Bool) (M : List Str) :
    ∀ (cM : List Bool) (B : List Str) (cB : List Bool) (acc : List Str),
      cM.length = M.length →
      downFrom (fun k acc => extraSuffixAt (k + 2) acc) M.length
          (acc, ⟨x0 :: x1 :: (M ++ B), c0 :: c1 :: (cM ++ cB)⟩) =
        some (acc ++ (markedParts M cM).reverse,
          ⟨x0 :: x1 :: (unmarkedParts M cM ++ B),
            c0 :: c1 :: (List.replicate (unmarkedParts M cM).length false ++ cB)⟩) := by
  induction M using List.reverseRecOn with
  | nil =>
    intro cM B cB acc hlen
    have : cM = [] := List.length_eq_zero.mp hlen
    subst this
    simp [downFrom, markedParts, unmarkedParts]
  | append_singleton M1 a ih =>
    intro cM B cB acc hlen
    have hne : cM ≠ [] := by
      intro h; subst h; simp at hlen
    obtain ⟨cM1, ca, rfl⟩ : ∃ cM1 ca, cM = cM1 ++ [ca] :=
      ⟨cM.dropLast, cM.getLast hne, (List.dropLast_append_getLast hne).symm⟩
    have hlen1 : cM1.length = M1.length := by simpa using hlen
    have hstep := extraSuffixAt_shape (x0 :: x1 :: M1) B a (c0 :: c1 :: cM1) cB ca acc
      (by simp [hlen1])
    have e1 : (M1 ++ [a]).length = M1.length + 1 := by simp
    have e2 : (x0 :: x1 :: M1).length = M1.length + 2 := by simp
    rw [e2] at hstep
    rw [e1, downFrom]
    simp only [List.append_assoc, List.singleton_append]
    simp only [List.cons_append] at hstep
    simp only [hstep]
    rw [markedParts_append M1 cM1 a ca hlen1, unmarkedParts_append M1 cM1 a ca hlen1]
    cases ca with
    | true =>
      simp only [if_true]
      rw [ih cM1 B cB (acc ++ [a]) hlen1]
      simp
    | false =>
      simp only [Bool.false_eq_true, if_false]
      rw [ih cM1 (a :: B) (false :: cB) acc hlen1]
      simp [List.replicate_succ']

theorem count_true_le_length (l : List Bool) : l.count true ≤ l.length := List.count_le_length _ _

/-- C15: `findExtraSuffixes` on a state with equal lengths leaves the parts and
markers at indices 0 and 1 as they are.  With at most one true marker, or at
most two parts, it returns no extra suffix and leaves the state unchanged.
With more than one true marker it returns the marked parts of index 2 and
above, right to left, and leaves the others in their order, none of them
marked. -/
theorem extra_suffixes_from_index_two (st : State) (h : Balanced st) :
    ∃ extra st1, findExtraSuffixes st = some (extra, st1) ∧
      st1.nameParts.take 2 = st.nameParts.take 2 ∧
      st1.nameCommas.take 2 = st.nameCommas.take 2 ∧
      ((st.nameCommas.count true ≤ 1 ∨ st.nameParts.length ≤ 2) → extra = [] ∧ st1 = st) ∧
      (1 < st.nameCommas.count true →
        extra = (markedParts (st.nameParts.drop 2) (st.nameCommas.drop 2)).reverse ∧
        st1.nameParts = st.nameParts.take 2 ++
          unmarkedParts (st.nameParts.drop 2) (st.nameCommas.drop 2) ∧
        st1.nameCommas = st.nameCommas.take 2 ++ List.replicate
          (unmarkedParts (st.nameParts.drop 2) (st.nameCommas.drop 2)).length false) := by
  obtain ⟨parts, commas⟩ := st
  have hb : parts.length = commas.length := h
  by_cases hk : commas.count true ≤ 1
  · refine ⟨[], ⟨parts, commas⟩, findExtraSuffixes_fixed _ hk, rfl, rfl, fun _ => ⟨rfl, rfl⟩, ?_⟩
    intro h1
    exact absurd h1 (by simpa using hk)
  · have hk1 : 1 < commas.count true := by omega
    have hcl := count_true_le_length commas
    match parts, commas, hb, hk1, hk, hcl with
    | x0 :: x1 :: M, c0 :: c1 :: cM, hb, hk1, hk, _ =>
      have hlen : cM.length = M.length := by simpa using hb.symm
      have hrun := downFrom_extraSuffixAt x0 x1 c0 c1 M cM [] [] [] hlen
      simp only [List.append_nil, List.nil_append] at hrun
      refine ⟨(markedParts M cM).reverse, ⟨x0 :: x1 :: unmarkedParts M cM,
        c0 :: c1 :: List.replicate (unmarkedParts M cM).length false⟩, ?_, ?_, ?_, ?_, ?_⟩
      · unfold findExtraSuffixes
        rw [if_pos hk1]
        simpa using hrun
      · rfl
      · rfl
      · rintro (h1 | h1)
        · exact absurd h1 hk
        · have h2 : (x0 :: x1 :: M).length ≤ 2 := h1
          simp only [List.length_cons] at h2
          have hM : M = [] := List.length_eq_zero.mp (by omega)
          subst hM
          have hcM : cM = [] := List.length_eq_zero.mp hlen
          subst hcM
          simp [markedParts, unmarkedParts]
      · intro _
        simp
    | [], [], _, hk1, _, _ => simp at hk1
    | [x0], [c0], _, hk1, _, hcl => simp at hcl; omega
    | [], _ :: _, hb, _, _, _ => simp at hb
    | _ :: _, [], hb, _, _, _ => simp at hb
    | [_], _ :: _ :: _, hb, _, _, _ => simp at hb
    | _ :: _ :: _, [_], hb, _, _, _ => simp at hb

theorem extra_suffixes_from_index_two_witness :
    ∃ extra st1, findExtraSuffixes
        ⟨["a".toList, "b".toList, "c".toList, "d".toList, "e".toList],
          [true, true, true, false, true]⟩ = some (extra, st1) ∧
      st1.nameParts.take 2 = ["a".toList, "b".toList] ∧
      st1.nameCommas.take 2 = [true, true] ∧
      extra = ["e".toList, "c".toList] ∧
      st1.nameParts = ["a".toList, "b".toList, "d".toList] ∧
      st1.nameCommas = [true, true, false] := by
  obtain ⟨extra, st1, h1, h2, h3, _, h5⟩ := extra_suffixes_from_index_two
    ⟨["a".toList, "b".toList, "c".toList, "d".toList, "e".toList],
      [true, true, true, false, true]⟩ rfl
  obtain ⟨h6, h7, h8⟩ := h5 (by decide)
  exact ⟨extra, st1, h1, h2, h3, h6, h7, h8⟩

/-! ## Nickname spans -/

theorem matchSpan_spec (t full inner : Str) (h : matchSpan t = some (full, inner)) :
    ∃ o c rest, t = o :: inner ++ c :: rest ∧ full = o :: inner ++ [c] ∧
      isOpener o = true ∧ isCloser c = true ∧ inner ≠ [] ∧ ∀ x ∈ inner, isInner x = true := by
  cases t with
  | nil => simp [matchSpan] at h
  | cons o rest =>
    simp only [matchSpan] at h
    by_cases ho : isOpener o = true
    · rw [if_pos ho] at h
      have hsplit := List.takeWhile_append_dropWhile isInner rest
      have hall : ∀ x ∈ rest.takeWhile isInner, isInner x = true :=
        fun x hx => List.mem_takeWhile_imp hx
      generalize rest.takeWhile isInner = tw at h hsplit hall
      generalize rest.dropWhile isInner = dw at h hsplit
      cases tw with
      | nil => simp at h
      | cons a tw1 =>
        cases dw with
        | nil => simp at h
        | cons c dw1 =>
          by_cases hc : isCloser c = true
          · simp only [hc, if_true, Option.some.injEq, Prod.mk.injEq] at h
            obtain ⟨hf, hi⟩ := h
            subst hi
            refine ⟨o, c, dw1, ?_, hf.symm, ho, hc, by simp, hall⟩
            rw [← hsplit]
            simp
          · simp [hc] at h
    · rw [if_neg ho] at h
      exact absurd h (by simp)

theorem matchNickname_spec (t full inner : Str) (h : matchNickname t = some (full, inner)) :
    full <+: t ∧ ∃ o c, isOpener o = true ∧ isCloser c = true ∧ inner ≠ [] ∧
      (∀ x ∈ inner, isInner x = true) ∧
      (full = o :: inner ++ [c] ∨ ∃ w, isPerlSpace w = true ∧ full = w :: o :: inner ++ [c]) := by
  cases t with
  | nil => simp [matchNickname] at h
  | cons w rest =>
    simp only [matchNickname] at h
    by_cases hw : isPerlSpace w = true
    · rw [if_pos hw] at h
      cases hm : matchSpan rest with
      | some r =>
        obtain ⟨full1, inner1⟩ := r
        simp only [hm, Option.some.injEq, Prod.mk.injEq] at h
        obtain ⟨hf, hi⟩ := h
        subst hi
        obtain ⟨o, c, rest1, ht, hfull, ho, hc, hne, hall⟩ := matchSpan_spec rest full1 inner1 hm
        refine ⟨?_, o, c, ho, hc, hne, hall, Or.inr ⟨w, hw, by rw [← hf, hfull]; simp⟩⟩
        rw [← hf, hfull, ht]
        exact ⟨rest1, by simp⟩
      | none =>
        simp only [hm] at h
        obtain ⟨o, c, rest1, ht, hfull, ho, hc, hne, hall⟩ :=
          matchSpan_spec (w :: rest) full inner h
        refine ⟨?_, o, c, ho, hc, hne, hall, Or.inl hfull⟩
        rw [hfull, ht]
        exact ⟨rest1, by simp⟩
    · rw [if_neg hw] at h
      obtain ⟨o, c, rest1, ht, hfull, ho, hc, hne, hall⟩ :=
        matchSpan_spec (w :: rest) full inner h
      refine ⟨?_, o, c, ho, hc, hne, hall, Or.inl hfull⟩
      rw [hfull, ht]
      exact ⟨rest1, by simp⟩

theorem findAllSubmatch_mem (s : Str) :
    ∀ (k : Nat) (m : Str × Str), m ∈ findAllSubmatch k s →
      ∃ t, t <:+ s ∧ matchNickname t = some m := by
  induction s with
  | nil => intro k m hm; cases k <;> simp [findAllSubmatch] at hm
  | cons c rest ih =>
    intro k m hm
    cases k with
    | succ k1 =>
      simp only [findAllSubmatch] at hm
      obtain ⟨t, ht, hmt⟩ := ih k1 m hm
      exact ⟨t, ht.trans (List.suffix_cons _ _), hmt⟩
    | zero =>
      simp only [findAllSubmatch] at hm
      cases hmatch : matchNickname (c :: rest) with
      | none =>
        rw [hmatch] at hm
        obtain ⟨t, ht, hmt⟩ := ih 0 m hm
        exact ⟨t, ht.trans (List.suffix_cons _ _), hmt⟩
      | some r =>
        rw [hmatch] at hm
        rcases List.mem_cons.mp hm with h1 | h1
        · exact ⟨c :: rest, List.suffix_refl _, by rw [hmatch, h1]⟩
        · obtain ⟨t, ht, hmt⟩ := ih _ m h1
          exact ⟨t, ht.trans (List.suffix_cons _ _), hmt⟩

/-- C16, as amended: every span that `findNicknames` matches lies in the input
and is made of an optional white-space character, one of the four openers, a
non-empty inner text without `[`, `]`, `)`, apostrophe and double quote, and
one of the four closers, whichever it is; the nicknames are the inner texts. -/
theorem nickname_span_shape (s full inner : Str) (h : (full, inner) ∈ findAllSubmatch 0 s) :
    (findNicknames s).1 = (findAllSubmatch 0 s).map Prod.snd ∧
    full <:+: s ∧
    ∃ o c, isOpener o = true ∧ isCloser c = true ∧ inner ≠ [] ∧
      (∀ x ∈ inner, isInner x = true) ∧
      (full = o :: inner ++ [c] ∨ ∃ w, isPerlSpace w = true ∧ full = w :: o :: inner ++ [c]) := by
  obtain ⟨t, ht, hm⟩ := findAllSubmatch_mem s 0 (full, inner) h
  obtain ⟨hpre, hshape⟩ := matchNickname_spec t full inner hm
  exact ⟨rfl, hpre.isInfix.trans ht.isInfix, hshape⟩

theorem nickname_span_shape_witness :
    (findNicknames "Juan (Doc Vega) Xavier".toList).1 =
      (findAllSubmatch 0 "Juan (Doc Vega) Xavier".toList).map Prod.snd ∧
    " (Doc Vega)".toList <:+: "Juan (Doc Vega) Xavier".toList ∧
    ∃ o c, isOpener o = true ∧ isCloser c = true ∧ "Doc Vega".toList ≠ [] ∧
      (∀ x ∈ "Doc Vega".toList, isInner x = true) ∧
      (" (Doc Vega)".toList = o :: "Doc Vega".toList ++ [c] ∨
        ∃ w, isPerlSpace w = true ∧ " (Doc Vega)".toList = w :: o :: "Doc Vega".toList ++ [c]) :=
  nickname_span_shape "Juan (Doc Vega) Xavier".toList " (Doc Vega)".toList "Doc Vega".toList
    (by decide!)

/-- C16 fails as stated: in `Juan (Doc] Xavier` the span opened by `(` is closed
by `]`, which is not the closer that matches `(`, and it is extracted as the
nickname `Doc` all the same. -/
theorem nickname_closer_mismatch :
    findAllSubmatch 0 "Juan (Doc] Xavier".toList = [(" (Doc]".toList, "Doc".toList)] ∧
    closerOf '(' = some ')' ∧ closerOf '(' ≠ some ']' ∧
    ParseFullname State.initial "Juan (Doc] Xavier".toList =
      some (⟨[], "Juan".toList, [], "Xavier".toList, "Doc".toList, []⟩, State.initial) := by
  decide!

/-! ## Removal by value in `findParts` -/

theorem firstIndex_erase (x : Str) (l : List Str) :
    match firstIndex x l with
    | none => l.erase x = l
    | some i => l.take i ++ l.drop (i + 1) = l.erase x := by
  induction l with
  | nil => simp [firstIndex]
  | cons y rest ih =>
    by_cases hxy : x = y
    · subst hxy
      simp [firstIndex]
    · have hyx : ¬ y = x := fun h => hxy h.symm
      simp only [firstIndex, if_neg hxy]
      cases hf : firstIndex x rest with
      | none =>
        rw [hf] at ih
        simp only [Option.map_none']
        simp only at ih
        rw [List.erase_cons_tail (by simpa using hyx), ih]
      | some i =>
        rw [hf] at ih
        simp only [Option.map_some']
        simp only at ih
        rw [List.erase_cons_tail (by simpa using hyx), ← ih]
        simp

theorem clearPart_erase (st : State) (p : Str) (h : Balanced st) :
    ∃ st1, clearPart st p = some st1 ∧ st1.nameParts = st.nameParts.erase p ∧ Balanced st1 := by
  obtain ⟨st1, h1, hb⟩ := clearPart_balanced st p h
  refine ⟨st1, h1, ?_, hb⟩
  have he := firstIndex_erase p st.nameParts
  unfold clearPart at h1
  cases hf : firstIndex p st.nameParts with
  | none =>
    rw [hf] at h1 he
    simp only [Option.some.injEq] at h1
    simp only at he
    rw [← h1, he]
  | some i =>
    rw [hf] at h1 he
    simp only at he h1
    have hlt := firstIndex_lt _ _ _ hf
    rw [spliceOut_eq_some _ _ _ (by omega) (by omega)] at h1
    simp only at h1
    cases hc : st.nameCommas.get? i with
    | none => rw [hc] at h1; simp at h1
    | some c =>
      rw [hc] at h1
      simp only at h1
      cases hs : (if c = true ∧ i + 1 ≠ st.nameCommas.length
          then spliceOut st.nameCommas (i + 1) (i + 1 + 1)
          else spliceOut st.nameCommas i (i + 1)) with
      | none => simp [hs] at h1
      | some cs =>
        rw [hs] at h1
        simp only [Option.some.injEq] at h1
        rw [← h1, ← he]

theorem forEachM_clearPart (found : List Str) :
    ∀ (st : State), Balanced st →
      ∃ st1, forEachM clearPart st found = some st1 ∧
        st1.nameParts = found.foldl List.erase st.nameParts ∧ Balanced st1 := by
  induction found with
  | nil => intro st h; exact ⟨st, rfl, rfl, h⟩
  | cons p rest ih =>
    intro st h
    obtain ⟨st1, h1, he, hb⟩ := clearPart_erase st p h
    obtain ⟨st2, h2, he2, hb2⟩ := ih st1 hb
    exact ⟨st2, by simp only [forEachM, h1, h2], by rw [he2, he]; rfl, hb2⟩

theorem filter_erase (q : Str → Bool) (v : Str) (hv : q v = false) (l : List Str) :
    (l.erase v).filter q = l.filter q := by
  induction l with
  | nil => rfl
  | cons y rest ih =>
    by_cases hy : y = v
    · subst hy
      simp [hv]
    · rw [List.erase_cons_tail (by simpa using hy)]
      simp only [List.filter_cons, ih]

theorem filter_foldl_erase (q : Str → Bool) (found : List Str) (hq : ∀ v ∈ found, q v = false) :
    ∀ l : List Str, (found.foldl List.erase l).filter q = l.filter q := by
  induction found with
  | nil => intro l; rfl
  | cons p rest ih =>
    intro l
    simp only [List.foldl_cons]
    rw [ih (fun v hv => hq v (List.mem_cons_of_mem _ hv)),
      filter_erase q p (hq p (List.mem_cons_self _ _))]

theorem count_foldl_erase (v : Str) (found : List Str) :
    ∀ l : List Str, (found.foldl List.erase l).count v = l.count v - found.count v := by
  induction found with
  | nil => intro l; simp
  | cons p rest ih =>
    intro l
    simp only [List.foldl_cons]
    rw [ih, List.count_erase, List.count_cons]
    omega

theorem mem_scanParts (list : List Str) (parts : List Str) (t : Str)
    (h : t ∈ scanParts list parts) : t ∈ parts ∧ listed list t := by
  induction parts with
  | nil => simp [scanParts] at h
  | cons y rest ih =>
    unfold scanParts at h
    split at h
    · exact ⟨List.mem_cons_of_mem _ (ih h).1, (ih h).2⟩
    · rename_i hne
      rcases List.mem_append.mp h with h1 | h1
      · obtain ⟨hk, rfl⟩ := List.mem_replicate.mp h1
        exact ⟨List.mem_cons_self _ _, hne, List.count_pos_iff.mp (Nat.pos_of_ne_zero hk)⟩
      · exact ⟨List.mem_cons_of_mem _ (ih h1).1, (ih h1).2⟩

theorem count_scanParts (list : List Str) (v : Str) (hv : listed list v) (parts : List Str) :
    parts.count v ≤ (scanParts list parts).count v := by
  induction parts with
  | nil => simp
  | cons y rest ih =>
    unfold scanParts
    by_cases hne : y = []
    · have hyv : ¬ y = v := fun h => hv.1 (h ▸ hne)
      rw [if_pos hne, List.count_cons_of_ne (fun h => hyv h.symm)]
      exact ih
    · rw [if_neg hne, List.count_append, List.count_cons, List.count_replicate]
      by_cases hyv : y = v
      · subst hyv
        have := List.count_pos_iff.mpr hv.2
        simp only [beq_self_eq_true, if_true]
        omega
      · have : (y == v) = false := by simpa using hyv
        simp only [this, Bool.false_eq_true, if_false]
        omega

/-- The parts left by `findParts` are the parts that do not match the list, in
their order. -/
theorem findParts_filter (list : List Str) (st : State) (h : Balanced st) :
    ∃ st1, findParts list st = some (scanParts list st.nameParts, st1) ∧
      st1.nameParts = st.nameParts.filter (fun t => !decide (listed list t)) ∧
      Balanced st1 := by
  obtain ⟨st1, h1, he, hb⟩ := forEachM_clearPart (scanParts list st.nameParts) st h
  refine ⟨st1, by simp only [findParts, h1], ?_, hb⟩
  have hfilter := filter_foldl_erase (fun t => !decide (listed list t))
    (scanParts list st.nameParts)
    (fun v hv => by simp [(mem_scanParts list st.nameParts v hv).2]) st.nameParts
  rw [← he] at hfilter
  rw [← hfilter]
  symm
  apply List.filter_eq_self.mpr
  intro x hx
  by_contra hl
  have hlist : listed list x := by simpa using hl
  have hc := count_foldl_erase x (scanParts list st.nameParts) st.nameParts
  rw [← he] at hc
  have hle := count_scanParts list x hlist st.nameParts
  have hpos := List.count_pos_iff.mpr hx
  omega

/-- C17: the parts that `findParts` leaves are the input parts without every
non-empty part whose lowered form, one trailing period stripped, is in the
list; the other parts are kept in their order.  This holds whatever parts
repeat and whatever entries the list holds twice. -/
theorem findParts_removes_by_filter (list : List Str) (st : State) (h : Balanced st) :
    ∃ found st1, findParts list st = some (found, st1) ∧
      st1.nameParts = st.nameParts.filter (fun t => !decide (t ≠ [] ∧ partToCheck t ∈ list)) := by
  obtain ⟨st1, h1, h2, _⟩ := findParts_filter list st h
  exact ⟨_, st1, h1, h2⟩

theorem findParts_removes_by_filter_witness :
    ∃ found st1, findParts titleList
        ⟨["Miss".toList, "Jane".toList, "Miss".toList, "Doe".toList, "miss".toList],
          [true, false, true, false, false]⟩ = some (found, st1) ∧
      st1.nameParts = ["Jane".toList, "Doe".toList] := by
  obtain ⟨found, st1, h1, h2⟩ := findParts_removes_by_filter titleList
    ⟨["Miss".toList, "Jane".toList, "Miss".toList, "Doe".toList, "miss".toList],
      [true, false, true, false, false]⟩ rfl
  refine ⟨found, st1, h1, ?_⟩
  rw [h2]
  decide!

/-! ## What reaches Title and Suffix -/

theorem splitOnSpace_no_space (s : Str) : ∀ w ∈ splitOnSpace s, ' ' ∉ w := by
  induction s with
  | nil => simp [splitOnSpace]
  | cons c rest ih =>
    intro w hw
    unfold splitOnSpace at hw
    split at hw
    · rcases List.mem_cons.mp hw with h1 | h1
      · rw [h1]; simp
      · exact ih w h1
    · rename_i hc
      cases hsp : splitOnSpace rest with
      | nil =>
        rw [hsp] at hw
        simp only [List.mem_singleton] at hw
        rw [hw]
        simpa using fun h => hc h.symm
      | cons w1 ws =>
        rw [hsp] at hw ih
        simp only [List.mem_cons] at hw
        rcases hw with h1 | h1
        · rw [h1]
          intro hmem
          rcases List.mem_cons.mp hmem with h2 | h2
          · exact hc h2.symm
          · exact ih w1 (List.mem_cons_self _ _) h2
        · exact ih w (List.mem_cons_of_mem _ h1)

theorem mem_of_mem_trimSpace (v : Str) (x : Char) (h : x ∈ trimSpace v) : x ∈ v := by
  unfold trimSpace at h
  rw [List.mem_reverse] at h
  have h1 := (List.dropWhile_suffix isSpace).subset h
  rw [List.mem_reverse] at h1
  exact (List.dropWhile_suffix isSpace).subset h1

theorem mem_of_mem_trimSuffix (c : Char) (v : Str) (x : Char) (h : x ∈ trimSuffix c v) :
    x ∈ v := by
  unfold trimSuffix at h
  split at h
  · exact (List.dropLast_prefix v).subset h
  · exact h

theorem splitLoop_mem (pieces : List Str) :
    ∀ (i : Nat) (commas : List Bool) (parts : List Str) (commas1 : List Bool),
      splitLoop pieces i commas = some (parts, commas1) →
      ∀ t ∈ parts, ∃ v ∈ pieces, ∀ x ∈ t, x ∈ v := by
  induction pieces with
  | nil =>
    intro i commas parts commas1 h t ht
    simp only [splitLoop, Option.some.injEq, Prod.mk.injEq] at h
    rw [← h.1] at ht
    simp at ht
  | cons v rest ih =>
    intro i commas parts commas1 h t ht
    simp only [splitLoop] at h
    split at h
    · cases hs : setAt (commas ++ [false]) i true with
      | none => simp [hs] at h
      | some c2 =>
        rw [hs] at h
        simp only at h
        cases hl : splitLoop rest (i + 1) c2 with
        | none => simp [hl] at h
        | some r =>
          rw [hl] at h
          simp only [Option.some.injEq, Prod.mk.injEq] at h
          rw [← h.1] at ht
          rcases List.mem_cons.mp ht with h1 | h1
          · exact ⟨v, List.mem_cons_self _ _, fun x hx =>
              mem_of_mem_trimSuffix ',' v x (h1 ▸ hx)⟩
          · obtain ⟨u, hu, hsub⟩ := ih (i + 1) c2 r.1 r.2 hl t h1
            exact ⟨u, List.mem_cons_of_mem _ hu, hsub⟩
    · cases hl : splitLoop rest (i + 1) (commas ++ [false]) with
      | none => simp [hl] at h
      | some r =>
        rw [hl] at h
        simp only [Option.some.injEq, Prod.mk.injEq] at h
        rw [← h.1] at ht
        rcases List.mem_cons.mp ht with h1 | h1
        · exact ⟨v, List.mem_cons_self _ _, fun x hx => mem_of_mem_trimSpace v x (h1 ▸ hx)⟩
        · obtain ⟨u, hu, hsub⟩ := ih (i + 1) _ r.1 r.2 hl t h1
          exact ⟨u, List.mem_cons_of_mem _ hu, hsub⟩

/-- No part that `splitName` produces contains a space. -/
theorem splitName_no_space (st st1 : State) (s : Str) (h : splitName st s = some st1) :
    ∀ t ∈ st1.nameParts, ' ' ∉ t := by
  intro t ht hsp
  simp only [splitName] at h
  cases hl : splitLoop (splitOnSpace (trimSpace (collapseSpaces false s))) 0 st.nameCommas with
  | none => simp [hl] at h
  | some r =>
    rw [hl] at h
    simp only [Option.some.injEq] at h
    rw [← h] at ht
    obtain ⟨v, hv, hsub⟩ := splitLoop_mem _ 0 _ r.1 r.2 hl t ht
    exact splitOnSpace_no_space _ v hv (hsub _ hsp)

theorem toLowerRune_eq_space (c : Char) (h : toLowerRune c = ' ') : c = ' ' := by
  unfold toLowerRune at h
  split at h
  · rename_i hc
    exfalso
    generalize c.toNat = n at hc h
    obtain ⟨h1, h2⟩ := hc
    interval_cases n <;> exact absurd h (by decide)
  · split at h
    · exact absurd h (by decide)
    · split at h
      · exact absurd h (by decide)
      · exact h

theorem partToCheck_no_space (t : Str) (h : ' ' ∉ t) : ' ' ∉ partToCheck t := by
  intro hm
  have h1 := mem_of_mem_trimSuffix '.' (toLower t) ' ' hm
  unfold toLower at h1
  obtain ⟨c, hc, he⟩ := List.mem_map.mp h1
  rw [toLowerRune_eq_space c he] at hc
  exact h hc

theorem prefix_addExtraSuffixes (suffix : Str) (extra : List Str) :
    suffix <+: addExtraSuffixes suffix extra := by
  unfold addExtraSuffixes
  split
  · split
    · rw [List.append_assoc]; exact List.prefix_append _ _
    · rename_i hs
      have : suffix = [] := by simpa using hs
      rw [this]
      exact List.nil_prefix
  · exact List.prefix_refl _

/-- The title handed to `nameStages` is the Title of the result, and the suffix
handed to it is the beginning of the Suffix of the result. -/
theorem nameStages_fields (nick suffix title : Str) (st : State) (r : ParsedName) (st1 : State)
    (h : nameStages nick suffix title st = some (r, st1)) :
    r.Title = title ∧ suffix <+: r.Suffix := by
  unfold nameStages at h
  cases h1 : (if st.nameParts.length > 1 then joinPrefixes st else some st) with
  | none => simp [h1] at h
  | some s1 =>
    cases h2 : (if s1.nameParts.length > 1 then joinConjunctions s1 else some s1) with
    | none => simp [h1, h2] at h
    | some s2 =>
      cases h3 : (if s2.nameParts.length > 1 then
          (findExtraSuffixes s2).map (fun r => (addExtraSuffixes suffix r.1, r.2))
          else some (suffix, s2)) with
      | none => simp [h1, h2, h3] at h
      | some s3 =>
        have hs3 : suffix <+: s3.1 := by
          split at h3
          · cases hx : findExtraSuffixes s2 with
            | none => simp [hx] at h3
            | some x =>
              rw [hx] at h3
              simp only [Option.map_some', Option.some.injEq] at h3
              rw [← h3]
              exact prefix_addExtraSuffixes suffix x.1
          · simp only [Option.some.injEq] at h3
            rw [← h3]
        cases h4 : (if s3.2.nameParts.length > 0 then findLastname s3.2
            else some ([], s3.2)) with
        | none => simp [h1, h2, h3, h4] at h
        | some s4 =>
          cases h5 : (if s4.2.nameParts.length > 0 then findFirstname s4.2
              else some ([], s4.2)) with
          | none => simp [h1, h2, h3, h4, h5] at h
          | some s5 =>
            simp only [h1, h2, h3, h4, h5, Option.some_bind, Option.some.injEq,
              Prod.mk.injEq] at h
            obtain ⟨hr, _⟩ := h
            subst hr
            exact ⟨rfl, hs3⟩

theorem infix_join_of_mem (l : List Str) (sep t : Str) (h : t ∈ l) : t <:+: join l sep := by
  induction l with
  | nil => simp at h
  | cons a rest ih =>
    cases rest with
    | nil =>
      rw [join_singleton]
      rw [List.mem_singleton.mp h]
    | cons b rest2 =>
      rw [join_cons_cons]
      rcases List.mem_cons.mp h with h1 | h1
      · rw [h1, List.append_assoc]
        exact (List.prefix_append _ _).isInfix
      · exact (ih h1).trans (List.suffix_append _ _).isInfix

/-- What `ParseFullname` puts in Title and at the start of Suffix, in terms of
the parts that `splitName` produces. -/
theorem parse_title_suffix (s : Str) :
    ∃ st1 r titles, splitName State.initial (findNicknames s).2 = some st1 ∧
      ParseFullname State.initial s = some (r, State.initial) ∧
      r.Title = join titles [',', ' '] ∧
      (∀ t ∈ titles, t ∈ st1.nameParts ∧ listed titleList t ∧ ¬ listed suffixList t) ∧
      (1 < st1.nameParts.length →
        join (scanParts suffixList st1.nameParts) [',', ' '] <+: r.Suffix) := by
  obtain ⟨st1, h1, hb1⟩ := splitName_balanced State.initial (findNicknames s).2 rfl
  have e1 : findSuffixes = findParts suffixList := rfl
  have e2 : findTitles = findParts titleList := rfl
  -- the suffix pass
  obtain ⟨sfx, st2, hsfx, hb2, hparts2, hsfx1⟩ : ∃ sfx st2,
      listStage findSuffixes st1 = some (sfx, st2) ∧ Balanced st2 ∧
      (∀ t ∈ st2.nameParts, t ∈ st1.nameParts ∧ ¬ listed suffixList t ∨
        st1.nameParts.length ≤ 1 ∧ t ∈ st1.nameParts) ∧
      (1 < st1.nameParts.length → sfx = join (scanParts suffixList st1.nameParts) [',', ' ']) := by
    unfold listStage
    by_cases hlen : st1.nameParts.length > 1
    · obtain ⟨st2, hf, hfil, hb2⟩ := findParts_filter suffixList st1 hb1
      refine ⟨_, st2, by rw [if_pos hlen, e1, hf]; rfl, hb2, ?_, fun _ => rfl⟩
      intro t ht
      rw [hfil] at ht
      have := List.mem_filter.mp ht
      exact Or.inl ⟨this.1, by simpa using this.2⟩
    · refine ⟨[], st1, by rw [if_neg hlen], hb1, fun t ht => Or.inr ⟨by omega, ht⟩, ?_⟩
      intro h; omega
  -- the title pass
  obtain ⟨titles, st3, httl, hb3, htitles⟩ : ∃ titles st3,
      listStage findTitles st2 = some (join titles [',', ' '], st3) ∧ Balanced st3 ∧
      (∀ t ∈ titles, t ∈ st2.nameParts ∧ listed titleList t ∧ 1 < st2.nameParts.length) := by
    unfold listStage
    by_cases hlen : st2.nameParts.length > 1
    · obtain ⟨st3, hf, _, hb3⟩ := findParts_filter titleList st2 hb2
      refine ⟨scanParts titleList st2.nameParts, st3, by rw [if_pos hlen, e2, hf]; rfl, hb3, ?_⟩
      intro t ht
      exact ⟨(mem_scanParts _ _ t ht).1, (mem_scanParts _ _ t ht).2, hlen⟩
    · exact ⟨[], st2, by rw [if_neg hlen, join_nil], hb2, by simp⟩
  obtain ⟨r, hr⟩ := nameStages_total (join (findNicknames s).1 [',']) sfx
    (join titles [',', ' ']) st3 hb3
  obtain ⟨hT, hS⟩ := nameStages_fields _ _ _ _ _ _ hr
  refine ⟨st1, r, titles, h1, ?_, hT, ?_, ?_⟩
  · simp only [ParseFullname, h1, parseStages, hsfx, httl, Option.some_bind, hr]
  · intro t ht
    obtain ⟨hm, hl, hlen2⟩ := htitles t ht
    rcases hparts2 t hm with ⟨h3, h4⟩ | ⟨h3, h4⟩
    · exact ⟨h3, hl, h4⟩
    · exfalso
      -- the suffix pass was skipped, so the title pass is skipped as well
      have hst : st2 = st1 := by
        unfold listStage at hsfx
        rw [if_neg (by omega)] at hsfx
        simp only [Option.some.injEq, Prod.mk.injEq] at hsfx
        exact hsfx.2.symm
      rw [hst] at hlen2
      omega
  · intro hlen
    rw [← hsfx1 hlen]
    exact hS

/-- C18: `sr` is an entry of both lists, and the suffix pass runs first.  Title
is made of parts that `splitName` produced, joined by a comma and a space, each
free of spaces, and none of them has the lowered form `sr`; and when more than
one part was produced, so that the passes run, every part with the lowered form
`sr` is written in Suffix. -/
theorem sr_is_suffix_not_title (s : Str) :
    "sr".toList ∈ suffixList ∧ "sr".toList ∈ titleList ∧
    ∃ st1 r titles, splitName State.initial (findNicknames s).2 = some st1 ∧
      ParseFullname State.initial s = some (r, State.initial) ∧
      r.Title = join titles [',', ' '] ∧
      (∀ t ∈ titles, t ∈ st1.nameParts ∧ ' ' ∉ t ∧ partToCheck t ≠ "sr".toList) ∧
      (1 < st1.nameParts.length → ∀ t ∈ st1.nameParts, t ≠ [] →
        partToCheck t = "sr".toList → t <:+: r.Suffix) := by
  refine ⟨by decide!, by decide!, ?_⟩
  obtain ⟨st1, r, titles, h1, h2, h3, h4, h5⟩ := parse_title_suffix s
  refine ⟨st1, r, titles, h1, h2, h3, ?_, ?_⟩
  · intro t ht
    obtain ⟨hm, _, hns⟩ := h4 t ht
    refine ⟨hm, splitName_no_space _ _ _ h1 t hm, ?_⟩
    intro he
    have hne : t ≠ [] := by
      intro h0
      rw [h0] at he
      exact absurd he (by decide)
    exact hns ⟨hne, by rw [he]; decide!⟩
  · intro hlen t ht hne he
    have hcount : 0 < (scanParts suffixList st1.nameParts).count t := by
      have hl : listed suffixList t := ⟨hne, by rw [he]; decide!⟩
      have := count_scanParts suffixList t hl st1.nameParts
      have := List.count_pos_iff.mpr ht
      omega
    have hmem := List.count_pos_iff.mp hcount
    exact (infix_join_of_mem _ [',', ' '] t hmem).trans (h5 hlen).isInfix

/-- C19: no part that `splitName` produces contains a space, whatever state it
starts from; so Title is made of parts free of spaces, joined by a comma and a
space, each matching the title list, and none of them matches an entry of
`titleList` that contains a space, of which `air commodore` and `the hon mr`
are two. -/
theorem spaced_titles_never_match (st : State) (s : Str) :
    (∃ st1, splitName st s = some st1 ∧ ∀ t ∈ st1.nameParts, ' ' ∉ t) ∧
    (∃ r titles, ParseFullname State.initial s = some (r, State.initial) ∧
      r.Title = join titles [',', ' '] ∧
      ∀ t ∈ titles, ' ' ∉ t ∧ listed titleList t ∧
        ∀ e ∈ titleList, ' ' ∈ e → partToCheck t ≠ e) ∧
    "air commodore".toList ∈ titleList ∧ "the hon mr".toList ∈ titleList := by
  refine ⟨?_, ?_, by decide!, by decide!⟩
  · obtain ⟨parts, commas1, hl, _, _⟩ :=
      splitLoop_total (splitOnSpace (trimSpace (collapseSpaces false s))) 0 st.nameCommas
        (Nat.zero_le _)
    have h1 : splitName st s = some ⟨parts, commas1⟩ := by simp only [splitName, hl]
    exact ⟨_, h1, splitName_no_space _ _ _ h1⟩
  · obtain ⟨st1, r, titles, h1, h2, h3, h4, _⟩ := parse_title_suffix s
    refine ⟨r, titles, h2, h3, ?_⟩
    intro t ht
    obtain ⟨hm, hl, _⟩ := h4 t ht
    have hsp := splitName_no_space _ _ _ h1 t hm
    refine ⟨hsp, hl, ?_⟩
    intro e _ he heq
    exact partToCheck_no_space t hsp (heq ▸ he)

end FullnameParser
